import Mathlib

/-!
# MOLB line-balancing tool — verification of the optimization core

Shallow embedding of the MOLB (multi-objective line balancing) JavaScript
sources: the data model (`models.js`), the Pareto analysis (`pareto.js`),
the objective scorer (`objectives.js`), the feasibility checker
(`feasibility.js`), the precedence analyzer (`precedence.js`) and the
heuristic solution generator (`heuristics.js`).

Modelling conventions:
* JS numbers are modelled as rationals (`ℚ`); every numeric operation the
  embedded code performs (addition, multiplication, division by a nonzero
  denominator, comparison, `Math.ceil`) is exact on the inputs considered,
  so float rounding is immaterial to the statements proved here.
  `Math.sqrt` (used only by the social score, which no statement below
  depends on) is modelled by the rational stand-in `sqrtQ`, exact on 0.
* JS `Map`s are association lists in insertion order with unique keys,
  `Map.get` is first-match lookup; JS `Set`s are lists queried by
  membership, `Set.add` inserts only if absent.
* Unbounded JS loops/recursion (the DFS of `hasCycles`, Kahn's queue loop,
  the memoized positional-weight recursion, the generator's `while` loop)
  are embedded with an explicit fuel parameter returning `none` on
  exhaustion; sufficiency of the supplied fuel is proved where needed.
-/

namespace MOLB

/-- `models.js` `Task`: one operation of the assembly line. -/
structure Task where
  id : String
  processingTime : ℚ
  toolType : String
  envScore : ℚ
deriving DecidableEq, Repr

/-- The `scores` record attached to a `Solution`. -/
structure Scores where
  economic : ℚ
  social : ℚ
  environmental : ℚ
  weighted : ℚ
deriving DecidableEq, Repr

/-- `models.js` `Station`: a workstation and its incrementally
maintained totals (`totalTime`, `tools` are stored fields, exactly as in
the source, not derived views). -/
structure Station where
  id : String
  tasks : List Task
  totalTime : ℚ
  tools : List (String × Nat)
deriving DecidableEq, Repr

/-- `models.js` `Solution`. -/
structure Solution where
  stations : List Station
  scores : Scores
  isValid : Bool
  validationErrors : List String
deriving DecidableEq, Repr

/-- The weight record of a `ProblemConfig`. -/
structure Weights where
  economic : ℚ
  social : ℚ
  environmental : ℚ
deriving DecidableEq, Repr

/-- `models.js` `ProblemConfig`: tasks, the bidirectional precedence
relation, takt time, tool limits and objective weights. -/
structure ProblemConfig where
  tasks : List (String × Task)
  precedence : List (String × List String)
  successors : List (String × List String)
  taktTime : ℚ
  toolLimits : List (String × Nat)
  weights : Weights
deriving DecidableEq, Repr

/-- First-match association lookup (JS `Map.prototype.get`). -/
def alookup {β : Type} (l : List (String × β)) (k : String) : Option β :=
  match l with
  | [] => none
  | (k', v) :: rest => if k' = k then some v else alookup rest k

/-- JS `Set.prototype.add`: insert only if absent. -/
def sadd (s : List String) (x : String) : List String :=
  if x ∈ s then s else x :: s

/-- Key list of a JS `Map` (`map.keys()`). -/
def keysOf {β : Type} (l : List (String × β)) : List String := l.map Prod.fst

/-- `config.precedence.get(t) || []`. -/
def getPreds (c : ProblemConfig) (t : String) : List String :=
  (alookup c.precedence t).getD []

/-- `config.successors.get(t) || []`. -/
def getSuccs (c : ProblemConfig) (t : String) : List String :=
  (alookup c.successors t).getD []

/-- Task-id key list of the config (`config.tasks.keys()`). -/
def taskKeys (c : ProblemConfig) : List String := keysOf c.tasks

/-! ## `pareto.js` -/

/-- `pareto.js` `dominates(a, b)`: the three-iteration loop with its
early `break` once `atLeastAsGood` turns false.  The loop is unrolled
over the score triples exactly as the source indexes them. -/
def dominatesLoop : List (ℚ × ℚ) → Bool → Bool → Bool
  | [], atLeastAsGood, betterInOne => atLeastAsGood && betterInOne
  | (a, b) :: rest, atLeastAsGood, betterInOne =>
    if a < b then false && betterInOne
    else dominatesLoop rest atLeastAsGood (betterInOne || decide (b < a))

/-- `pareto.js` `dominates(a, b)`. -/
def dominates (a b : Solution) : Bool :=
  dominatesLoop
    [(a.scores.economic, b.scores.economic),
     (a.scores.social, b.scores.social),
     (a.scores.environmental, b.scores.environmental)]
    true false

/-- `pareto.js` `findParetoFront(solutions)`. -/
def findParetoFront (solutions : List Solution) : List Solution :=
  if solutions.length = 0 then [] else
  let validSolutions := solutions.filter (fun s => s.isValid)
  if validSolutions.length = 0 then [] else
  validSolutions.filter (fun candidate =>
    !(validSolutions.any (fun other =>
        decide (other ≠ candidate) && dominates other candidate)))

/-- `pareto.js` `rankSolutions(solutions)`: filter to valid, sort by
weighted score descending (JS `Array.prototype.sort` is a stable sort). -/
def rankSolutions (solutions : List Solution) : List Solution :=
  (solutions.filter (fun s => s.isValid)).mergeSort
    (fun a b => decide (b.scores.weighted ≤ a.scores.weighted))

/-- Characterization of the `dominates` loop: it answers "each score at
least as good and strictly better in at least one". -/
theorem dominates_iff (a b : Solution) :
    dominates a b = true ↔
      (b.scores.economic ≤ a.scores.economic ∧
       b.scores.social ≤ a.scores.social ∧
       b.scores.environmental ≤ a.scores.environmental) ∧
      (b.scores.economic < a.scores.economic ∨
       b.scores.social < a.scores.social ∨
       b.scores.environmental < a.scores.environmental) := by
  rcases a with ⟨na, ⟨ae, as, av, aw⟩, va, ea⟩
  rcases b with ⟨nb, ⟨be, bs, bv, bw⟩, vb, eb⟩
  by_cases h1 : ae < be
  · simp only [dominates, dominatesLoop, h1, if_true, Bool.false_and,
      Bool.false_eq_true, false_iff, not_and]
    rintro ⟨hle, _, _⟩
    exact absurd h1 (not_lt.mpr hle)
  · by_cases h2 : as < bs
    · simp only [dominates, dominatesLoop, h1, h2, if_true, if_false,
        Bool.false_and, Bool.false_eq_true, false_iff, not_and]
      rintro ⟨_, hle, _⟩
      exact absurd h2 (not_lt.mpr hle)
    · by_cases h3 : av < bv
      · simp only [dominates, dominatesLoop, h1, h2, h3, if_true, if_false,
          Bool.false_and, Bool.false_eq_true, false_iff, not_and]
        rintro ⟨_, _, hle⟩
        exact absurd h3 (not_lt.mpr hle)
      · simp only [dominates, dominatesLoop, h1, h2, h3, if_false,
          Bool.true_and, Bool.false_or, Bool.or_eq_true, decide_eq_true_iff]
        constructor
        · intro h
          exact ⟨⟨not_lt.mp h1, not_lt.mp h2, not_lt.mp h3⟩, or_assoc.mp h⟩
        · exact fun h => or_assoc.mpr h.2

/-- A solution never dominates itself (all comparisons tie). -/
theorem dominates_self_false (s : Solution) : dominates s s = false := by
  rcases h : dominates s s with _ | _
  · rfl
  · rcases (dominates_iff s s).mp h with ⟨_, h2⟩
    rcases h2 with h2 | h2 | h2 <;> exact absurd h2 (lt_irrefl _)

/-- `models.js` `Solution` constructor: fresh solutions start with all
four scores 0, `isValid = true` and no validation errors. -/
def mkSolution (stations : List Station := []) : Solution :=
  { stations := stations
    scores := { economic := 0, social := 0, environmental := 0, weighted := 0 }
    isValid := true
    validationErrors := [] }

/-- C9: `dominates(a, b)` and `dominates(b, a)` are never both true, and
when the three scores of `a` and `b` are pairwise equal neither solution
dominates the other. -/
theorem dominates_mutual_exclusion (a b : Solution) :
    (dominates a b && dominates b a) = false ∧
    (a.scores.economic = b.scores.economic →
     a.scores.social = b.scores.social →
     a.scores.environmental = b.scores.environmental →
     dominates a b = false ∧ dominates b a = false) := by
  constructor
  · rcases hab : dominates a b with _ | _
    · simp
    · rcases hba : dominates b a with _ | _
      · simp
      · exfalso
        obtain ⟨⟨le1, le2, le3⟩, hst⟩ := (dominates_iff a b).mp hab
        obtain ⟨⟨ge1, ge2, ge3⟩, _⟩ := (dominates_iff b a).mp hba
        rcases hst with h | h | h
        · exact absurd h (not_lt.mpr ge1)
        · exact absurd h (not_lt.mpr ge2)
        · exact absurd h (not_lt.mpr ge3)
  · intro h1 h2 h3
    constructor
    · rcases hab : dominates a b with _ | _
      · rfl
      · obtain ⟨_, hst⟩ := (dominates_iff a b).mp hab
        rw [h1, h2, h3] at hst
        rcases hst with h | h | h <;> exact absurd h (lt_irrefl _)
    · rcases hba : dominates b a with _ | _
      · rfl
      · obtain ⟨_, hst⟩ := (dominates_iff b a).mp hba
        rw [h1, h2, h3] at hst
        rcases hst with h | h | h <;> exact absurd h (lt_irrefl _)

/-- Witness for `dominates_mutual_exclusion` at two score-equal
solutions that differ in their other fields. -/
theorem dominates_mutual_exclusion_witness :
    (dominates (mkSolution []) { mkSolution [] with isValid := false } &&
     dominates { mkSolution [] with isValid := false } (mkSolution [])) = false ∧
    dominates (mkSolution []) { mkSolution [] with isValid := false } = false ∧
    dominates { mkSolution [] with isValid := false } (mkSolution []) = false := by
  refine ⟨(dominates_mutual_exclusion _ _).1, ?_⟩
  exact (dominates_mutual_exclusion _ _).2 rfl rfl rfl

/-- C10: a freshly constructed `Solution` is marked valid, carries no
violations and all-zero scores, and therefore survives the `isValid`
filters of `findParetoFront` and `rankSolutions`. -/
theorem mkSolution_defaults_and_passes_filters (ss : List Station) :
    (mkSolution ss).isValid = true ∧
    (mkSolution ss).validationErrors = [] ∧
    (mkSolution ss).scores.economic = 0 ∧
    (mkSolution ss).scores.social = 0 ∧
    (mkSolution ss).scores.environmental = 0 ∧
    (mkSolution ss).scores.weighted = 0 ∧
    ∀ l : List Solution, mkSolution ss ∈ l →
      (mkSolution ss ∈ l.filter (fun s => s.isValid) ∧
       mkSolution ss ∈ rankSolutions l) := by
  refine ⟨rfl, rfl, rfl, rfl, rfl, rfl, ?_⟩
  intro l hmem
  have hfil : mkSolution ss ∈ l.filter (fun s => s.isValid) :=
    List.mem_filter.mpr ⟨hmem, rfl⟩
  exact ⟨hfil, (List.mergeSort_perm _ _).mem_iff.mpr hfil⟩

/-- Witness for `mkSolution_defaults_and_passes_filters` at a singleton
population. -/
theorem mkSolution_defaults_witness :
    mkSolution [] ∈ [mkSolution []] ∧
    mkSolution [] ∈ ([mkSolution []].filter (fun s => s.isValid)) ∧
    mkSolution [] ∈ rankSolutions [mkSolution []] := by
  have h := (mkSolution_defaults_and_passes_filters []).2.2.2.2.2.2
    [mkSolution []] (List.mem_singleton.mpr rfl)
  exact ⟨List.mem_singleton.mpr rfl, h.1, h.2⟩

/-- An invalid solution with high scores, used to probe the dominance
filter of `findParetoFront`. -/
def invalidHigh : Solution :=
  { stations := [], scores := { economic := 1, social := 1, environmental := 1, weighted := 1 }
    isValid := false, validationErrors := ["invalid"] }

/-- A valid solution with all-zero scores. -/
def validLow : Solution :=
  { stations := [], scores := { economic := 0, social := 0, environmental := 0, weighted := 0 }
    isValid := true, validationErrors := [] }

/-- C1 counterexample: `findParetoFront` keeps a solution that is
dominated by an *invalid* element of the input list, because invalid
solutions are filtered out before the pairwise dominance checks.  Here
`invalidHigh` dominates `validLow`, both are in the input, yet
`validLow` is returned. -/
theorem findParetoFront_keeps_solution_dominated_by_invalid_input :
    dominates invalidHigh validLow = true ∧
    invalidHigh ∈ [invalidHigh, validLow] ∧
    invalidHigh ≠ validLow ∧
    findParetoFront [invalidHigh, validLow] = [validLow] := by
  refine ⟨?_, by simp, by decide, ?_⟩ <;>
    simp [findParetoFront, dominates, dominatesLoop, invalidHigh, validLow]

/-- C1 (amended): every element returned by `findParetoFront` is valid
and is not dominated by any other *valid* element of the input list. -/
theorem findParetoFront_valid_and_undominated (sols : List Solution)
    (s : Solution) (h : s ∈ findParetoFront sols) :
    s.isValid = true ∧
    ∀ o ∈ sols, o.isValid = true → dominates o s = false := by
  unfold findParetoFront at h
  by_cases h0 : sols.length = 0
  · rw [if_pos h0] at h
    exact absurd h (List.not_mem_nil s)
  · rw [if_neg h0] at h
    by_cases h1 : (sols.filter (fun s => s.isValid)).length = 0
    · simp only [h1, if_true] at h
      exact absurd h (List.not_mem_nil s)
    · simp only [if_neg h1] at h
      rw [List.mem_filter] at h
      obtain ⟨hmem, hpred⟩ := h
      refine ⟨(List.mem_filter.mp hmem).2, ?_⟩
      intro o ho hov
      have hoval : o ∈ sols.filter (fun s => s.isValid) :=
        List.mem_filter.mpr ⟨ho, hov⟩
      rw [Bool.not_eq_true'] at hpred
      have hone := (List.any_eq_false.mp hpred) o hoval
      rcases Bool.and_eq_false_iff.mp (Bool.eq_false_iff.mpr hone) with hne | hd
      · have heq : o = s := not_not.mp (of_decide_eq_false hne)
        rw [heq]
        exact dominates_self_false s
      · exact hd

/-- Witness for `findParetoFront_valid_and_undominated` at the
two-element population used in the counterexample above. -/
theorem findParetoFront_valid_and_undominated_witness :
    validLow.isValid = true ∧
    ∀ o ∈ [invalidHigh, validLow], o.isValid = true →
      dominates o validLow = false := by
  exact findParetoFront_valid_and_undominated [invalidHigh, validLow] validLow
    (by simp [findParetoFront, dominates, dominatesLoop, invalidHigh, validLow])

/-! ## `objectives.js` -/

/-- Rational stand-in for `Math.sqrt`, exact on `0` and on perfect
squares.  It is used only inside the social score, whose value none of
the statements below depends on. -/
def sqrtQ (q : ℚ) : ℚ := (Nat.sqrt q.num.toNat : ℚ) / (Nat.sqrt q.den : ℚ)

/-- `objectives.js` `calculateEconomicScore(solution, config)`:
`0.7 * efficiency + 0.3 * stationPenalty` (not the capped utilization
of the design spec). -/
def calculateEconomicScore (solution : Solution) (config : ProblemConfig) : ℚ :=
  if solution.stations.length = 0 then 0 else
  let totalAvailableTime : ℚ := (solution.stations.length : ℚ) * config.taktTime
  let totalUsedTime : ℚ := (solution.stations.map Station.totalTime).sum
  let totalIdleTime : ℚ := totalAvailableTime - totalUsedTime
  let efficiency : ℚ := 1 - totalIdleTime / totalAvailableTime
  let minStations : ℤ := ⌈totalUsedTime / config.taktTime⌉
  let stationPenalty : ℚ := (minStations : ℚ) / (solution.stations.length : ℚ)
  0.7 * efficiency + 0.3 * stationPenalty

/-- `objectives.js` `calculateSocialScore(solution, config)`. -/
def calculateSocialScore (solution : Solution) (_config : ProblemConfig) : ℚ :=
  if solution.stations.length ≤ 1 then 1 else
  let times := solution.stations.map Station.totalTime
  let mean : ℚ := times.sum / (times.length : ℚ)
  if mean = 0 then 1 else
  let variance : ℚ := (times.map (fun t => (t - mean) ^ 2)).sum / (times.length : ℚ)
  let stdDev := sqrtQ variance
  let cv := stdDev / mean
  max 0 (1 - cv)

/-- `objectives.js` `calculateEnvironmentalScore(solution, config)`:
`0.8 * baseScore + 0.2 * (1 - normalizedToolPenalty)`, where the base
score is driven by the per-task `envScore` field. -/
def calculateEnvironmentalScore (solution : Solution) (config : ProblemConfig) : ℚ :=
  if solution.stations.length = 0 then 0 else
  let totalEnvImpact : ℚ :=
    (solution.stations.map (fun st => (st.tasks.map Task.envScore).sum)).sum
  let maxPossibleImpact : ℚ :=
    (solution.stations.map (fun st => (st.tasks.map (fun _ => (10 : ℚ))).sum)).sum
  if maxPossibleImpact = 0 then 1 else
  let toolDiversityPenalty : ℚ :=
    (solution.stations.map (fun st => (st.tools.length : ℚ) - 1)).sum
  let maxToolDiversity : ℚ :=
    (solution.stations.length : ℚ) * (config.toolLimits.length : ℚ)
  let normalizedToolPenalty : ℚ :=
    if maxToolDiversity > 0 then toolDiversityPenalty / maxToolDiversity else 0
  let baseScore : ℚ := 1 - totalEnvImpact / maxPossibleImpact
  0.8 * baseScore + 0.2 * (1 - normalizedToolPenalty)

/-- `objectives.js` `calculateAllScores(solution, config)`: stores the
three objective scores and the weighted aggregate
`economic*wE + social*wS + environmental*wEnv` (no division by the
weight total). -/
def calculateAllScores (solution : Solution) (config : ProblemConfig) : Solution :=
  let economic := calculateEconomicScore solution config
  let social := calculateSocialScore solution config
  let environmental := calculateEnvironmentalScore solution config
  { solution with
    scores :=
      { economic := economic, social := social, environmental := environmental
        weighted :=
          economic * config.weights.economic +
          social * config.weights.social +
          environmental * config.weights.environmental } }

/-- `objectives.js` `updateWeightedScores(solutions, weights)`. -/
def updateWeightedScores (solutions : List Solution) (weights : Weights) :
    List Solution :=
  solutions.map (fun solution =>
    { solution with
      scores :=
        { solution.scores with
          weighted :=
            solution.scores.economic * weights.economic +
            solution.scores.social * weights.social +
            solution.scores.environmental * weights.environmental } })

/-- The weighted-score formula as the spec states it (division by the
weight total), for comparison with the implementation. -/
def weightedScoreSpec (economic social environmental : ℚ) (w : Weights) : ℚ :=
  (economic * w.economic + social * w.social + environmental * w.environmental) /
    (w.economic + w.social + w.environmental)

/-- The economic score as the spec states it: total processing time of
all assigned tasks over takt time times station count, capped at 1. -/
def economicScoreSpec (solution : Solution) (config : ProblemConfig) : ℚ :=
  min ((solution.stations.map (fun st => (st.tasks.map Task.processingTime).sum)).sum /
        (config.taktTime * (solution.stations.length : ℚ))) 1

/-- The environmental score as the spec states it: tool-unit counting,
`(totalPossibleToolUnits − usedToolUnits) / (totalPossibleToolUnits −
minimumPossibleToolUnits)` clamped to `[0, 1]`, with 1 on a non-positive
denominator; independent of the per-task `envScore` field. -/
def environmentalScoreSpec (solution : Solution) (_config : ProblemConfig) : ℚ :=
  let totalPossibleToolUnits : ℚ :=
    ((solution.stations.map (fun st => st.tasks.length)).sum : ℚ)
  let usedToolUnits : ℚ :=
    ((solution.stations.map
        (fun st => ((st.tasks.map Task.toolType).dedup).length)).sum : ℚ)
  let minimumPossibleToolUnits : ℚ := (solution.stations.length : ℚ)
  if totalPossibleToolUnits - minimumPossibleToolUnits ≤ 0 then 1 else
  max 0 (min 1 ((totalPossibleToolUnits - usedToolUnits) /
    (totalPossibleToolUnits - minimumPossibleToolUnits)))

/-- A 5-second task on tool `M1` with the default `envScore` of 1. -/
def taskT1 : Task := { id := "T1", processingTime := 5, toolType := "M1", envScore := 1 }

/-- A second 5-second task on tool `M1`. -/
def taskT2 : Task := { id := "T2", processingTime := 5, toolType := "M1", envScore := 1 }

/-- A station holding only `taskT1`. -/
def stationOneTask : Station :=
  { id := "S1", tasks := [taskT1], totalTime := 5, tools := [("M1", 1)] }

/-- A station holding `taskT1` and `taskT2`. -/
def stationTwoTasks : Station :=
  { id := "S1", tasks := [taskT1, taskT2], totalTime := 10, tools := [("M1", 2)] }

/-- The same two-task station with only the `envScore` fields raised
from 1 to 5. -/
def stationTwoTasksHi : Station :=
  { id := "S1", tasks := [{ taskT1 with envScore := 5 }, { taskT2 with envScore := 5 }]
    totalTime := 10, tools := [("M1", 2)] }

/-- Single-station solution over `taskT1`. -/
def solOneTask : Solution := mkSolution [stationOneTask]

/-- Single-station solution over `taskT1` and `taskT2`. -/
def solTwoTasks : Solution := mkSolution [stationTwoTasks]

/-- `solTwoTasks` with only the per-task `envScore` fields changed. -/
def solTwoTasksHi : Solution := mkSolution [stationTwoTasksHi]

/-- A config with takt time 10, tool limit `M1 ↦ 2` and unit weights. -/
def cfgTakt10 : ProblemConfig :=
  { tasks := [("T1", taskT1)], precedence := [("T1", [])], successors := [("T1", [])]
    taktTime := 10, toolLimits := [("M1", 2)]
    weights := { economic := 1, social := 1, environmental := 1 } }

/-- C6 counterexample: on a one-station solution using half the takt
time, `calculateEconomicScore` returns `0.7·0.5 + 0.3·1 = 0.65`, not the
capped utilisation `0.5` the claim states. -/
theorem economic_score_not_capped_utilization :
    calculateEconomicScore solOneTask cfgTakt10 = 13 / 20 ∧
    economicScoreSpec solOneTask cfgTakt10 = 1 / 2 ∧
    calculateEconomicScore solOneTask cfgTakt10 ≠
      economicScoreSpec solOneTask cfgTakt10 := by
  have h1 : calculateEconomicScore solOneTask cfgTakt10 = 13 / 20 := by
    have hceil : ⌈(1 : ℚ) / 2⌉ = (1 : ℤ) := by
      rw [Int.ceil_eq_iff]
      norm_num
    norm_num [calculateEconomicScore, solOneTask, stationOneTask, taskT1,
      cfgTakt10, mkSolution, hceil]
  have h2 : economicScoreSpec solOneTask cfgTakt10 = 1 / 2 := by
    norm_num [economicScoreSpec, solOneTask, stationOneTask, taskT1,
      cfgTakt10, mkSolution]
  refine ⟨h1, h2, ?_⟩
  rw [h1, h2]
  norm_num

/-- C6 (amended): for a nonempty solution and nonzero takt time the
economic score is `0.7·(T/(n·takt)) + 0.3·(⌈T/takt⌉/n)` where `T` is
the summed station time and `n` the station count. -/
theorem calculateEconomicScore_formula (sol : Solution) (cfg : ProblemConfig)
    (hne : sol.stations ≠ []) (htakt : cfg.taktTime ≠ 0) :
    calculateEconomicScore sol cfg =
      0.7 * ((sol.stations.map Station.totalTime).sum /
             ((sol.stations.length : ℚ) * cfg.taktTime)) +
      0.3 * ((⌈(sol.stations.map Station.totalTime).sum / cfg.taktTime⌉ : ℚ) /
             (sol.stations.length : ℚ)) := by
  have hn : sol.stations.length ≠ 0 := fun h => hne (List.length_eq_zero.mp h)
  have hnq : (sol.stations.length : ℚ) ≠ 0 := Nat.cast_ne_zero.mpr hn
  unfold calculateEconomicScore
  rw [if_neg hn]
  have hA : (sol.stations.length : ℚ) * cfg.taktTime ≠ 0 := mul_ne_zero hnq htakt
  field_simp

/-- Witness for `calculateEconomicScore_formula` on the concrete
one-station instance. -/
theorem calculateEconomicScore_formula_witness :
    (solOneTask.stations ≠ [] ∧ cfgTakt10.taktTime ≠ 0) ∧
    calculateEconomicScore solOneTask cfgTakt10 =
      0.7 * ((solOneTask.stations.map Station.totalTime).sum /
             ((solOneTask.stations.length : ℚ) * cfgTakt10.taktTime)) +
      0.3 * ((⌈(solOneTask.stations.map Station.totalTime).sum / cfgTakt10.taktTime⌉ : ℚ) /
             (solOneTask.stations.length : ℚ)) := by
  have ha : solOneTask.stations ≠ [] := by simp [solOneTask, mkSolution]
  have hb : cfgTakt10.taktTime ≠ 0 := by simp [cfgTakt10]
  exact ⟨⟨ha, hb⟩, calculateEconomicScore_formula solOneTask cfgTakt10 ha hb⟩

/-- C7 counterexample: `calculateEnvironmentalScore` disagrees with the
spec's tool-unit formula on a two-task, one-station solution, and
changing only the per-task `envScore` fields changes its result, so the
field does play a role. -/
theorem environmental_score_uses_envScore_not_tool_units :
    calculateEnvironmentalScore solTwoTasks cfgTakt10 = 23 / 25 ∧
    environmentalScoreSpec solTwoTasks cfgTakt10 = 1 ∧
    calculateEnvironmentalScore solTwoTasks cfgTakt10 ≠
      environmentalScoreSpec solTwoTasks cfgTakt10 ∧
    calculateEnvironmentalScore solTwoTasksHi cfgTakt10 = 3 / 5 ∧
    calculateEnvironmentalScore solTwoTasksHi cfgTakt10 ≠
      calculateEnvironmentalScore solTwoTasks cfgTakt10 := by
  have h1 : calculateEnvironmentalScore solTwoTasks cfgTakt10 = 23 / 25 := by
    norm_num [calculateEnvironmentalScore, solTwoTasks, stationTwoTasks,
      taskT1, taskT2, cfgTakt10, mkSolution]
  have h2 : environmentalScoreSpec solTwoTasks cfgTakt10 = 1 := by
    norm_num [environmentalScoreSpec, solTwoTasks, stationTwoTasks,
      taskT1, taskT2, cfgTakt10, mkSolution, List.dedup]
  have h3 : calculateEnvironmentalScore solTwoTasksHi cfgTakt10 = 3 / 5 := by
    norm_num [calculateEnvironmentalScore, solTwoTasksHi, stationTwoTasksHi,
      taskT1, taskT2, cfgTakt10, mkSolution]
  refine ⟨h1, h2, ?_, h3, ?_⟩
  · rw [h1, h2]; norm_num
  · rw [h1, h3]; norm_num

/-- C7 (amended): for a nonempty solution with at least one assigned
task and a nonempty tool-limit table, the environmental score is
`0.8·(1 − ΣenvScore/(10·m)) + 0.2·(1 − Σ(|tools|−1)/(n·|toolLimits|))`. -/
theorem calculateEnvironmentalScore_formula (sol : Solution) (cfg : ProblemConfig)
    (hne : sol.stations ≠ [])
    (hm : (sol.stations.map (fun st => st.tasks.length)).sum ≠ 0)
    (hL : cfg.toolLimits ≠ []) :
    calculateEnvironmentalScore sol cfg =
      0.8 * (1 - (sol.stations.map (fun st => (st.tasks.map Task.envScore).sum)).sum /
        (10 * (((sol.stations.map (fun st => st.tasks.length)).sum : ℕ) : ℚ))) +
      0.2 * (1 - (sol.stations.map (fun st => (st.tools.length : ℚ) - 1)).sum /
        ((sol.stations.length : ℚ) * (cfg.toolLimits.length : ℚ))) := by
  have hn : sol.stations.length ≠ 0 := fun h => hne (List.length_eq_zero.mp h)
  have hmax : (sol.stations.map (fun st => (st.tasks.map (fun _ => (10 : ℚ))).sum)).sum =
      10 * (((sol.stations.map (fun st => st.tasks.length)).sum : ℕ) : ℚ) := by
    induction sol.stations with
    | nil => simp
    | cons st rest ih =>
      simp only [List.map_cons, List.sum_cons, ih]
      have hst : ((st.tasks.map (fun _ => (10 : ℚ))).sum) = 10 * (st.tasks.length : ℚ) := by
        induction st.tasks with
        | nil => simp
        | cons t ts ih2 =>
          simp only [List.map_cons, List.sum_cons, ih2, List.length_cons]
          push_cast
          ring
      rw [hst]
      push_cast
      ring
  have hmaxne :
      (sol.stations.map (fun st => (st.tasks.map (fun _ => (10 : ℚ))).sum)).sum ≠ 0 := by
    rw [hmax]
    have hq : (((sol.stations.map (fun st => st.tasks.length)).sum : ℕ) : ℚ) ≠ 0 :=
      Nat.cast_ne_zero.mpr hm
    exact mul_ne_zero (by norm_num) hq
  have hLpos : ((sol.stations.length : ℚ) * (cfg.toolLimits.length : ℚ)) > 0 := by
    have h1 : 0 < (sol.stations.length : ℚ) := by
      exact_mod_cast Nat.pos_of_ne_zero hn
    have h2 : 0 < (cfg.toolLimits.length : ℚ) := by
      have hl0 : cfg.toolLimits.length ≠ 0 := fun h => hL (List.length_eq_zero.mp h)
      exact_mod_cast Nat.pos_of_ne_zero hl0
    exact mul_pos h1 h2
  unfold calculateEnvironmentalScore
  rw [if_neg hn]
  simp only [if_neg hmaxne, if_pos hLpos]
  rw [hmax]

/-- Witness for `calculateEnvironmentalScore_formula` on the concrete
two-task instance. -/
theorem calculateEnvironmentalScore_formula_witness :
    (solTwoTasks.stations ≠ [] ∧
     (solTwoTasks.stations.map (fun st => st.tasks.length)).sum ≠ 0 ∧
     cfgTakt10.toolLimits ≠ []) ∧
    calculateEnvironmentalScore solTwoTasks cfgTakt10 =
      0.8 * (1 - (solTwoTasks.stations.map (fun st => (st.tasks.map Task.envScore).sum)).sum /
        (10 * (((solTwoTasks.stations.map (fun st => st.tasks.length)).sum : ℕ) : ℚ))) +
      0.2 * (1 - (solTwoTasks.stations.map (fun st => (st.tools.length : ℚ) - 1)).sum /
        ((solTwoTasks.stations.length : ℚ) * (cfgTakt10.toolLimits.length : ℚ))) := by
  have ha : solTwoTasks.stations ≠ [] := by simp [solTwoTasks, mkSolution]
  have hb : (solTwoTasks.stations.map (fun st => st.tasks.length)).sum ≠ 0 := by
    simp [solTwoTasks, stationTwoTasks, mkSolution]
  have hc : cfgTakt10.toolLimits ≠ [] := by simp [cfgTakt10]
  exact ⟨⟨ha, hb, hc⟩,
    calculateEnvironmentalScore_formula solTwoTasks cfgTakt10 ha hb hc⟩

/-- A bare solution whose three objective scores are all 1. -/
def solOnes : Solution :=
  { stations := [], scores := { economic := 1, social := 1, environmental := 1, weighted := 0 }
    isValid := true, validationErrors := [] }

/-- C5 counterexample: with unit weights (total 3), the implementation
stores `1·1 + 1·1 + 1·1 = 3` where the claim's normalized formula gives
`1`; likewise `calculateAllScores` stores `2.57` where the claim gives
`2.57/3`. -/
theorem weighted_score_not_divided_by_weight_total :
    (updateWeightedScores [solOnes]
        { economic := 1, social := 1, environmental := 1 }).map
      (fun s => s.scores.weighted) = [3] ∧
    weightedScoreSpec 1 1 1 { economic := 1, social := 1, environmental := 1 } = 1 ∧
    (3 : ℚ) ≠ 1 ∧
    (calculateAllScores solOneTask cfgTakt10).scores.weighted = 257 / 100 ∧
    weightedScoreSpec (calculateAllScores solOneTask cfgTakt10).scores.economic
      (calculateAllScores solOneTask cfgTakt10).scores.social
      (calculateAllScores solOneTask cfgTakt10).scores.environmental
      cfgTakt10.weights = 257 / 300 ∧
    (257 / 100 : ℚ) ≠ 257 / 300 := by
  have heco : calculateEconomicScore solOneTask cfgTakt10 = 13 / 20 := by
    have hceil : ⌈(1 : ℚ) / 2⌉ = (1 : ℤ) := by
      rw [Int.ceil_eq_iff]
      norm_num
    norm_num [calculateEconomicScore, solOneTask, stationOneTask, taskT1,
      cfgTakt10, mkSolution, hceil]
  have hsoc : calculateSocialScore solOneTask cfgTakt10 = 1 := by
    norm_num [calculateSocialScore, solOneTask, mkSolution]
  have henv : calculateEnvironmentalScore solOneTask cfgTakt10 = 23 / 25 := by
    norm_num [calculateEnvironmentalScore, solOneTask, stationOneTask,
      taskT1, cfgTakt10, mkSolution]
  have hfold : (calculateAllScores solOneTask cfgTakt10).scores.weighted =
      calculateEconomicScore solOneTask cfgTakt10 * cfgTakt10.weights.economic +
      calculateSocialScore solOneTask cfgTakt10 * cfgTakt10.weights.social +
      calculateEnvironmentalScore solOneTask cfgTakt10 * cfgTakt10.weights.environmental := rfl
  have heco2 : (calculateAllScores solOneTask cfgTakt10).scores.economic =
      calculateEconomicScore solOneTask cfgTakt10 := rfl
  have hsoc2 : (calculateAllScores solOneTask cfgTakt10).scores.social =
      calculateSocialScore solOneTask cfgTakt10 := rfl
  have henv2 : (calculateAllScores solOneTask cfgTakt10).scores.environmental =
      calculateEnvironmentalScore solOneTask cfgTakt10 := rfl
  have hwts : cfgTakt10.weights = { economic := 1, social := 1, environmental := 1 } := rfl
  refine ⟨?_, ?_, by norm_num, ?_, ?_, by norm_num⟩
  · norm_num [updateWeightedScores, solOnes]
  · norm_num [weightedScoreSpec]
  · rw [hfold, heco, hsoc, henv, hwts]
    norm_num
  · rw [weightedScoreSpec, heco2, hsoc2, henv2, heco, hsoc, henv, hwts]
    norm_num

/-- C5 (amended): the stored weighted score is the plain dot product of
the three scores with the weights — no division by the weight total —
both in `calculateAllScores` and in `updateWeightedScores` (which leaves
the three objective scores untouched). -/
theorem weighted_score_is_unnormalized_dot_product (sol : Solution)
    (cfg : ProblemConfig) (sols : List Solution) (w : Weights) (i : Nat)
    (hi : i < sols.length) :
    (calculateAllScores sol cfg).scores.weighted =
      (calculateAllScores sol cfg).scores.economic * cfg.weights.economic +
      (calculateAllScores sol cfg).scores.social * cfg.weights.social +
      (calculateAllScores sol cfg).scores.environmental * cfg.weights.environmental ∧
    (updateWeightedScores sols w).length = sols.length ∧
    ∀ h : i < (updateWeightedScores sols w).length,
      ((updateWeightedScores sols w).get ⟨i, h⟩).scores.weighted =
        (sols.get ⟨i, hi⟩).scores.economic * w.economic +
        (sols.get ⟨i, hi⟩).scores.social * w.social +
        (sols.get ⟨i, hi⟩).scores.environmental * w.environmental ∧
      ((updateWeightedScores sols w).get ⟨i, h⟩).scores.economic =
        (sols.get ⟨i, hi⟩).scores.economic ∧
      ((updateWeightedScores sols w).get ⟨i, h⟩).scores.social =
        (sols.get ⟨i, hi⟩).scores.social ∧
      ((updateWeightedScores sols w).get ⟨i, h⟩).scores.environmental =
        (sols.get ⟨i, hi⟩).scores.environmental := by
  refine ⟨rfl, by simp [updateWeightedScores], ?_⟩
  intro h
  simp [updateWeightedScores, List.get_eq_getElem]

/-- Witness for `weighted_score_is_unnormalized_dot_product` at a
singleton population. -/
theorem weighted_score_is_unnormalized_dot_product_witness :
    0 < [solOnes].length ∧
    (calculateAllScores solOneTask cfgTakt10).scores.weighted =
      (calculateAllScores solOneTask cfgTakt10).scores.economic * cfgTakt10.weights.economic +
      (calculateAllScores solOneTask cfgTakt10).scores.social * cfgTakt10.weights.social +
      (calculateAllScores solOneTask cfgTakt10).scores.environmental *
        cfgTakt10.weights.environmental := by
  refine ⟨by norm_num, ?_⟩
  exact (weighted_score_is_unnormalized_dot_product solOneTask cfgTakt10
    [solOnes] { economic := 1, social := 1, environmental := 1 } 0 (by norm_num)).1

/-! ## `feasibility.js`

The Dutch violation strings pushed by `checkFeasibility` are modelled as
an inductive type, one constructor per distinct `errors.push(...)` site,
carrying the data the source interpolates into the string. -/

/-- One violation entry of `checkFeasibility`'s `errors` array. -/
inductive Violation where
  /-- "Taak `id` is meerdere keren toegewezen" -/
  | dupAssigned (taskId : String)
  /-- "Taak `id` is niet toegewezen" -/
  | notAssigned (taskId : String)
  /-- "Station `id`: tijd `t`s overschrijdt takt-tijd `takt`s" -/
  | overTakt (stationId : String) (time takt : ℚ)
  /-- "Station `id`: `count`x `tool` overschrijdt limiet van `limit`" -/
  | overToolLimit (stationId toolType : String) (count limit : Nat)
  /-- "Precedence fout: `pred` → `task`, maar `pred` is niet toegewezen" -/
  | predUnassigned (predId taskId : String)
  /-- "Precedence fout: `pred` moet vóór `task`, maar staat in later station" -/
  | predLaterStation (predId taskId : String)
  /-- "Precedence fout: `pred` moet vóór `task` binnen station `id`" -/
  | predLaterInStation (predId taskId stationId : String)
deriving DecidableEq, Repr

/-- Check 1 inner loop: scan one station's task list, flagging ids seen
before and extending the `assignedTasks` set. -/
def pass1Tasks : List Task → List String → List Violation →
    (List String × List Violation)
  | [], seen, errs => (seen, errs)
  | t :: ts, seen, errs =>
    let errs' := if t.id ∈ seen then errs ++ [Violation.dupAssigned t.id] else errs
    pass1Tasks ts (sadd seen t.id) errs'

/-- Check 1 outer loop over the stations. -/
def pass1Go : List Station → List String → List Violation →
    (List String × List Violation)
  | [], seen, errs => (seen, errs)
  | st :: rest, seen, errs =>
    let r := pass1Tasks st.tasks seen errs
    pass1Go rest r.1 r.2

/-- Check 1 of `checkFeasibility`: every task assigned exactly once;
returns the `assignedTasks` set and the accumulated errors. -/
def pass1 (solution : Solution) (config : ProblemConfig) :
    (List String × List Violation) :=
  let r := pass1Go solution.stations [] []
  (r.1, r.2 ++ (taskKeys config).filterMap (fun k =>
    if k ∈ r.1 then none else some (Violation.notAssigned k)))

/-- Check 2 of `checkFeasibility`: takt time per station. -/
def pass2 (solution : Solution) (config : ProblemConfig) : List Violation :=
  solution.stations.filterMap (fun st =>
    if st.totalTime > config.taktTime then
      some (Violation.overTakt st.id st.totalTime config.taktTime)
    else none)

/-- Check 3 of `checkFeasibility`: tool limits per station. -/
def pass3 (solution : Solution) (config : ProblemConfig) : List Violation :=
  solution.stations.flatMap (fun st =>
    st.tools.filterMap (fun p =>
      match alookup config.toolLimits p.1 with
      | some limit => if p.2 > limit then
          some (Violation.overToolLimit st.id p.1 p.2 limit) else none
      | none => none))

/-- JS `Map.prototype.set`: overwrite in place if the key exists,
append otherwise. -/
def mupsert (m : List (String × Nat)) (k : String) (v : Nat) :
    List (String × Nat) :=
  if (alookup m k).isSome then
    m.map (fun p => if p.1 = k then (k, v) else p)
  else m ++ [(k, v)]

/-- The `taskToStation` map of Check 4: task id ↦ index of the (last)
station holding it. -/
def taskToStationOf (solution : Solution) : List (String × Nat) :=
  solution.stations.enum.foldl
    (fun m p => p.2.tasks.foldl (fun m t => mupsert m t.id p.1) m) []

/-- JS `Array.prototype.findIndex` over a station's task list: index of
the first task with the given id, `-1` if absent. -/
def findIndexId (tasks : List Task) (tid : String) : Int :=
  match tasks.findIdx? (fun t => t.id = tid) with
  | some i => (i : Int)
  | none => -1

/-- Check 4 of `checkFeasibility`: precedence relations.  (The source
indexes `solution.stations[taskStation]` directly; the `none` arm of
that lookup is unreachable because the map's values are indices of
`solution.stations`.) -/
def pass4 (solution : Solution) (config : ProblemConfig) : List Violation :=
  let t2s := taskToStationOf solution
  config.precedence.flatMap (fun pr =>
    match alookup t2s pr.1 with
    | none => []
    | some taskStation =>
      pr.2.flatMap (fun predId =>
        match alookup t2s predId with
        | none => [Violation.predUnassigned predId pr.1]
        | some predStation =>
          if predStation > taskStation then
            [Violation.predLaterStation predId pr.1]
          else if predStation = taskStation then
            match solution.stations.get? taskStation with
            | none => []
            | some station =>
              if findIndexId station.tasks predId >
                  findIndexId station.tasks pr.1 then
                [Violation.predLaterInStation predId pr.1 station.id]
              else []
          else []))

/-- The result record of `checkFeasibility`. -/
structure FeasibilityResult where
  isValid : Bool
  errors : List Violation
deriving DecidableEq, Repr

/-- `feasibility.js` `checkFeasibility(solution, config)`: the four
accumulating passes, `isValid` iff no error was pushed. -/
def checkFeasibility (solution : Solution) (config : ProblemConfig) :
    FeasibilityResult :=
  let errors := (pass1 solution config).2 ++ pass2 solution config ++
    pass3 solution config ++ pass4 solution config
  { isValid := errors.length = 0, errors := errors }

/-- The result record of `canAddTaskToStation`. -/
structure CanAddResult where
  canAdd : Bool
  reason : Option String
deriving DecidableEq, Repr

/-- `feasibility.js` `canAddTaskToStation(task, station, config,
assignedTasks)`: short-circuiting single-task admissibility check. -/
def canAddTaskToStation (task : Task) (station : Station)
    (config : ProblemConfig) (assignedTasks : List String) : CanAddResult :=
  if station.totalTime + task.processingTime > config.taktTime then
    { canAdd := false, reason := some "Takt-tijd overschreden" }
  else
    let currentToolCount := (alookup station.tools task.toolType).getD 0
    let limit := alookup config.toolLimits task.toolType
    if (match limit with
        | some l => decide (currentToolCount + 1 > l)
        | none => false) = true then
      { canAdd := false
        reason := some ("Gereedschapslimiet " ++ task.toolType ++ " bereikt") }
    else
      match (getPreds config task.id).find? (fun p => p ∉ assignedTasks) with
      | some p => { canAdd := false, reason := some ("Wacht op taak " ++ p) }
      | none => { canAdd := true, reason := none }

/-- All assigned task ids of a solution, with multiplicity, in station
then in-station order. -/
def assignedIds (solution : Solution) : List String :=
  solution.stations.flatMap (fun st => st.tasks.map Task.id)

theorem sadd_mem (s : List String) (x y : String) :
    y ∈ sadd s x ↔ y ∈ s ∨ y = x := by
  unfold sadd
  by_cases h : x ∈ s
  · rw [if_pos h]
    constructor
    · exact Or.inl
    · rintro (hy | rfl)
      · exact hy
      · exact h
  · rw [if_neg h]
    simp [List.mem_cons, or_comm]

theorem pass1Tasks_errs_mono (ts : List Task) (seen : List String)
    (errs : List Violation) (e : Violation) (he : e ∈ errs) :
    e ∈ (pass1Tasks ts seen errs).2 := by
  induction ts generalizing seen errs with
  | nil => exact he
  | cons t rest ih =>
    unfold pass1Tasks
    apply ih
    by_cases h : t.id ∈ seen
    · simp only [if_pos h]
      exact List.mem_append_left _ he
    · simpa only [if_neg h] using he

theorem pass1Tasks_seen (ts : List Task) (seen : List String)
    (errs : List Violation) (x : String) :
    x ∈ (pass1Tasks ts seen errs).1 ↔ x ∈ seen ∨ x ∈ ts.map Task.id := by
  induction ts generalizing seen errs with
  | nil => simp [pass1Tasks]
  | cons t rest ih =>
    unfold pass1Tasks
    rw [ih, sadd_mem]
    simp only [List.map_cons, List.mem_cons]
    tauto

theorem pass1Tasks_dup_of_seen (ts : List Task) (seen : List String)
    (errs : List Violation) (id : String) (hseen : id ∈ seen)
    (hmem : id ∈ ts.map Task.id) :
    Violation.dupAssigned id ∈ (pass1Tasks ts seen errs).2 := by
  induction ts generalizing seen errs with
  | nil => simp at hmem
  | cons t rest ih =>
    unfold pass1Tasks
    rw [List.map_cons] at hmem
    rcases List.mem_cons.mp hmem with heq | hmem'
    · have hts : t.id ∈ seen := heq ▸ hseen
      apply pass1Tasks_errs_mono
      rw [if_pos hts]
      apply List.mem_append_right
      rw [heq]
      exact List.mem_singleton.mpr rfl
    · exact ih (sadd seen t.id) _ ((sadd_mem _ _ _).mpr (Or.inl hseen)) hmem'

theorem pass1Tasks_dup_of_count (ts : List Task) (seen : List String)
    (errs : List Violation) (id : String)
    (hc : 2 ≤ (ts.map Task.id).count id) :
    Violation.dupAssigned id ∈ (pass1Tasks ts seen errs).2 := by
  induction ts generalizing seen errs with
  | nil => simp at hc
  | cons t rest ih =>
    unfold pass1Tasks
    by_cases heq : t.id = id
    · have h1 : 1 ≤ (rest.map Task.id).count id := by
        simp only [List.map_cons, heq, List.count_cons_self] at hc
        omega
      exact pass1Tasks_dup_of_seen rest _ _ id
        ((sadd_mem _ _ _).mpr (Or.inr heq.symm)) (List.one_le_count_iff.mp h1)
    · have h2 : 2 ≤ (rest.map Task.id).count id := by
        simpa [List.count_cons, heq, Ne.symm heq] using hc
      exact ih _ _ h2

theorem pass1Go_errs_mono (sts : List Station) (seen : List String)
    (errs : List Violation) (e : Violation) (he : e ∈ errs) :
    e ∈ (pass1Go sts seen errs).2 := by
  induction sts generalizing seen errs with
  | nil => exact he
  | cons st rest ih =>
    exact ih _ _ (pass1Tasks_errs_mono st.tasks seen errs e he)

theorem pass1Go_seen (sts : List Station) (seen : List String)
    (errs : List Violation) (x : String) :
    x ∈ (pass1Go sts seen errs).1 ↔
      x ∈ seen ∨ x ∈ sts.flatMap (fun st => st.tasks.map Task.id) := by
  induction sts generalizing seen errs with
  | nil => simp [pass1Go]
  | cons st rest ih =>
    unfold pass1Go
    rw [ih, pass1Tasks_seen]
    simp only [List.flatMap_cons, List.mem_append, List.mem_flatMap]
    constructor
    · rintro ((h | h) | h)
      · exact Or.inl h
      · exact Or.inr (Or.inl h)
      · rcases h with ⟨a, ha, hx⟩
        exact Or.inr (Or.inr ⟨a, ha, hx⟩)
    · rintro (h | h | h)
      · exact Or.inl (Or.inl h)
      · exact Or.inl (Or.inr h)
      · exact Or.inr h

theorem pass1Go_dup (sts : List Station) (seen : List String)
    (errs : List Violation) (id : String)
    (h : (id ∈ seen ∧ id ∈ sts.flatMap (fun st => st.tasks.map Task.id)) ∨
         2 ≤ (sts.flatMap (fun st => st.tasks.map Task.id)).count id) :
    Violation.dupAssigned id ∈ (pass1Go sts seen errs).2 := by
  induction sts generalizing seen errs with
  | nil =>
    rcases h with ⟨_, h⟩ | h <;> simp at h
  | cons st rest ih =>
    unfold pass1Go
    rcases h with ⟨hseen, hmem⟩ | hcount
    · rw [List.flatMap_cons] at hmem
      rcases List.mem_append.mp hmem with h1 | h2
      · exact pass1Go_errs_mono rest _ _ _
          (pass1Tasks_dup_of_seen st.tasks seen errs id hseen h1)
      · apply ih
        left
        exact ⟨(pass1Tasks_seen _ _ _ _).mpr (Or.inl hseen), h2⟩
    · rw [List.flatMap_cons, List.count_append] at hcount
      by_cases h1 : 2 ≤ (st.tasks.map Task.id).count id
      · exact pass1Go_errs_mono rest _ _ _
          (pass1Tasks_dup_of_count st.tasks seen errs id h1)
      · by_cases h2 : 2 ≤ (rest.flatMap (fun st => st.tasks.map Task.id)).count id
        · exact ih _ _ (Or.inr h2)
        · have hs : 1 ≤ (st.tasks.map Task.id).count id := by omega
          have hr : 1 ≤ (rest.flatMap (fun st => st.tasks.map Task.id)).count id := by
            omega
          apply ih
          left
          refine ⟨(pass1Tasks_seen _ _ _ _).mpr (Or.inr (List.one_le_count_iff.mp hs)),
            List.one_le_count_iff.mp hr⟩

/-- C3: `checkFeasibility` marks a solution valid exactly when its error
list is empty, and that list contains an entry for every violation of
all four passes — duplicate assignment, missing assignment, takt-time
excess, tool-limit excess and every violated precedence pair — with no
short-circuiting. -/
theorem checkFeasibility_reports_all_violations (s : Solution)
    (c : ProblemConfig) :
    ((checkFeasibility s c).isValid = true ↔ (checkFeasibility s c).errors = []) ∧
    (∀ id : String, 2 ≤ (assignedIds s).count id →
      Violation.dupAssigned id ∈ (checkFeasibility s c).errors) ∧
    (∀ k ∈ taskKeys c, k ∉ assignedIds s →
      Violation.notAssigned k ∈ (checkFeasibility s c).errors) ∧
    (∀ st ∈ s.stations, st.totalTime > c.taktTime →
      Violation.overTakt st.id st.totalTime c.taktTime ∈ (checkFeasibility s c).errors) ∧
    (∀ st ∈ s.stations, ∀ p ∈ st.tools, ∀ lim,
      alookup c.toolLimits p.1 = some lim → p.2 > lim →
      Violation.overToolLimit st.id p.1 p.2 lim ∈ (checkFeasibility s c).errors) ∧
    (∀ pr ∈ c.precedence, ∀ predId ∈ pr.2, ∀ i,
      alookup (taskToStationOf s) pr.1 = some i →
      (alookup (taskToStationOf s) predId = none →
        Violation.predUnassigned predId pr.1 ∈ (checkFeasibility s c).errors) ∧
      (∀ j, alookup (taskToStationOf s) predId = some j →
        (j > i → Violation.predLaterStation predId pr.1 ∈ (checkFeasibility s c).errors) ∧
        (j = i → ∀ st, s.stations.get? i = some st →
          findIndexId st.tasks predId > findIndexId st.tasks pr.1 →
          Violation.predLaterInStation predId pr.1 st.id ∈
            (checkFeasibility s c).errors))) := by
  have herr : (checkFeasibility s c).errors =
      (pass1 s c).2 ++ pass2 s c ++ pass3 s c ++ pass4 s c := rfl
  refine ⟨?_, ?_, ?_, ?_, ?_, ?_⟩
  · constructor
    · intro h
      have := of_decide_eq_true h
      exact List.length_eq_zero.mp this
    · intro h
      have h2 : (pass1 s c).2 ++ pass2 s c ++ pass3 s c ++ pass4 s c = [] := by
        rw [← herr]
        exact h
      show decide _ = true
      rw [h2]
      rfl
  · intro id hc
    rw [herr]
    apply List.mem_append_left
    apply List.mem_append_left
    apply List.mem_append_left
    unfold pass1
    apply List.mem_append_left
    exact pass1Go_dup s.stations [] [] id (Or.inr hc)
  · intro k hk hna
    rw [herr]
    apply List.mem_append_left
    apply List.mem_append_left
    apply List.mem_append_left
    unfold pass1
    apply List.mem_append_right
    apply List.mem_filterMap.mpr
    refine ⟨k, hk, ?_⟩
    have : k ∉ (pass1Go s.stations [] []).1 := by
      rw [pass1Go_seen]
      rintro (h | h)
      · simp at h
      · exact hna h
    rw [if_neg this]
  · intro st hst hgt
    rw [herr]
    apply List.mem_append_left
    apply List.mem_append_left
    apply List.mem_append_right
    exact List.mem_filterMap.mpr ⟨st, hst, by rw [if_pos hgt]⟩
  · intro st hst p hp lim hlim hgt
    rw [herr]
    apply List.mem_append_left
    apply List.mem_append_right
    apply List.mem_flatMap.mpr
    refine ⟨st, hst, List.mem_filterMap.mpr ⟨p, hp, ?_⟩⟩
    rw [hlim]
    simp only [if_pos hgt]
  · intro pr hpr predId hpred i hi
    have hbase : ∀ v : Violation,
        v ∈ (pass4 s c) → v ∈ (checkFeasibility s c).errors := by
      intro v hv
      rw [herr]
      exact List.mem_append_right _ hv
    constructor
    · intro hnone
      apply hbase
      unfold pass4
      apply List.mem_flatMap.mpr
      refine ⟨pr, hpr, ?_⟩
      rw [hi]
      apply List.mem_flatMap.mpr
      refine ⟨predId, hpred, ?_⟩
      rw [hnone]
      exact List.mem_singleton.mpr rfl
    · intro j hj
      constructor
      · intro hgt
        apply hbase
        unfold pass4
        apply List.mem_flatMap.mpr
        refine ⟨pr, hpr, ?_⟩
        rw [hi]
        apply List.mem_flatMap.mpr
        refine ⟨predId, hpred, ?_⟩
        rw [hj]
        simp only [if_pos hgt]
        exact List.mem_singleton.mpr rfl
      · intro heq st hstget hidx
        apply hbase
        unfold pass4
        apply List.mem_flatMap.mpr
        refine ⟨pr, hpr, ?_⟩
        rw [hi]
        apply List.mem_flatMap.mpr
        refine ⟨predId, hpred, ?_⟩
        rw [hj]
        have hnotgt : ¬ j > i := by omega
        simp only [if_neg hnotgt, if_pos heq, hstget]
        simp only [if_pos hidx]
        exact List.mem_singleton.mpr rfl

/-- A station that assigns `taskT1` twice and overruns every limit. -/
def stationDup : Station :=
  { id := "S1", tasks := [taskT1, taskT1], totalTime := 10, tools := [("M1", 2)] }

/-- Solution consisting of the duplicated station only. -/
def solDup : Solution := mkSolution [stationDup]

/-- A config (takt 3, tool limit `M1 ↦ 1`, precedence `T2 → T1`) that
`solDup` violates in all four passes at once. -/
def cfgStrict : ProblemConfig :=
  { tasks := [("T1", taskT1), ("T2", taskT2)]
    precedence := [("T1", ["T2"]), ("T2", [])]
    successors := [("T2", ["T1"]), ("T1", [])]
    taktTime := 3, toolLimits := [("M1", 1)]
    weights := { economic := 1, social := 1, environmental := 1 } }

/-- Witness for `checkFeasibility_reports_all_violations`: on `solDup`
against `cfgStrict` all five violation kinds are reported together. -/
theorem checkFeasibility_reports_all_violations_witness :
    Violation.dupAssigned "T1" ∈ (checkFeasibility solDup cfgStrict).errors ∧
    Violation.notAssigned "T2" ∈ (checkFeasibility solDup cfgStrict).errors ∧
    Violation.overTakt "S1" 10 3 ∈ (checkFeasibility solDup cfgStrict).errors ∧
    Violation.overToolLimit "S1" "M1" 2 1 ∈ (checkFeasibility solDup cfgStrict).errors ∧
    Violation.predUnassigned "T2" "T1" ∈ (checkFeasibility solDup cfgStrict).errors ∧
    (checkFeasibility solDup cfgStrict).isValid = false := by
  have H := checkFeasibility_reports_all_violations solDup cfgStrict
  have hdup : Violation.dupAssigned "T1" ∈ (checkFeasibility solDup cfgStrict).errors :=
    H.2.1 "T1" (by decide)
  refine ⟨hdup, ?_, ?_, ?_, ?_, ?_⟩
  · exact H.2.2.1 "T2" (by decide) (by decide)
  · exact H.2.2.2.1 stationDup (by simp [solDup, mkSolution]) (by norm_num [stationDup, cfgStrict])
  · exact H.2.2.2.2.1 stationDup (by simp [solDup, mkSolution]) ("M1", 2)
      (by simp [stationDup]) 1 rfl (by norm_num)
  · exact (H.2.2.2.2.2 ("T1", ["T2"]) (by simp [cfgStrict]) "T2"
      (List.mem_singleton.mpr rfl) 0 rfl).1 rfl
  · cases hval : (checkFeasibility solDup cfgStrict).isValid with
    | false => rfl
    | true =>
      have h0 := H.1.mp hval
      rw [h0] at hdup
      exact absurd hdup (List.not_mem_nil _)

/-! ## `heuristics.js` (`src/unnamed/part_000`)

`generateSolution` is embedded with the priority rule abstracted to a
function `prioritize` reordering the available-task list: all five
rules of `sortByHeuristic` (LPT, slack, positional weight, random,
hybrid) return a permutation of their input — `Array.prototype.sort`
and the Fisher–Yates shuffle permute — and the permutation property is
the only fact about them the statements below use. -/

/-- `models.js` `Station` constructor. -/
def mkStation (id : String) : Station :=
  { id := id, tasks := [], totalTime := 0, tools := [] }

/-- `models.js` `Station.addTask(task)`. -/
def Station.addTask (st : Station) (task : Task) : Station :=
  { st with
    tasks := st.tasks ++ [task]
    totalTime := st.totalTime + task.processingTime
    tools := mupsert st.tools task.toolType
      ((alookup st.tools task.toolType).getD 0 + 1) }

/-- `precedence.js` `getAvailableTasks(config, assignedTasks)`:
unassigned tasks whose direct predecessors are all assigned. -/
def getAvailableTasks (config : ProblemConfig) (assignedTasks : List String) :
    List Task :=
  config.tasks.filterMap (fun p =>
    if p.1 ∈ assignedTasks then none
    else if (getPreds config p.1).all (fun q => decide (q ∈ assignedTasks)) then
      some p.2
    else none)

/-- End of `generateSolution`: push the last station if nonempty and
wrap the stations in a fresh `Solution`. -/
def finishSolution (stations : List Station) (currentStation : Station) :
    Solution :=
  mkSolution (if currentStation.tasks.length > 0 then
    stations ++ [currentStation] else stations)

/-- The `while (assignedTasks.size < config.tasks.size)` loop of
`heuristics.js` `generateSolution`, with fuel (`none` = the source loops
past this many iterations). -/
def genLoop (c : ProblemConfig) (prioritize : List Task → List Task) :
    Nat → List Station → List String → Station → Option Solution
  | 0, _, _, _ => none
  | fuel + 1, stations, assigned, currentStation =>
    if assigned.length < c.tasks.length then
      let available := getAvailableTasks c assigned
      if available.length = 0 then
        some (finishSolution stations currentStation)
      else
        let ordered := prioritize available
        match ordered.find? (fun t =>
            (canAddTaskToStation t currentStation c assigned).canAdd) with
        | some t =>
          genLoop c prioritize fuel stations (sadd assigned t.id)
            (currentStation.addTask t)
        | none =>
          if currentStation.tasks.length > 0 then
            genLoop c prioritize fuel (stations ++ [currentStation]) assigned
              (mkStation ("S" ++ toString ((stations ++ [currentStation]).length + 1)))
          else
            genLoop c prioritize fuel stations assigned
              (mkStation ("S" ++ toString (stations.length + 1)))
    else some (finishSolution stations currentStation)

/-- `heuristics.js` `generateSolution(config, heuristic)`, fuelled. -/
def generateSolution (c : ProblemConfig) (prioritize : List Task → List Task)
    (fuel : Nat) : Option Solution :=
  genLoop c prioritize fuel [] [] (mkStation "S1")

/-- A config whose single task does not fit an empty station: processing
time 5 against takt time 3. -/
def cfgOversized : ProblemConfig :=
  { tasks := [("T1", taskT1)]
    precedence := [("T1", [])], successors := [("T1", [])]
    taktTime := 3, toolLimits := [("M1", 2)]
    weights := { economic := 1, social := 1, environmental := 1 } }

theorem cfgOversized_cannot_add (sid : String) :
    (canAddTaskToStation taskT1 (mkStation sid) cfgOversized []).canAdd = false := by
  unfold canAddTaskToStation mkStation
  rw [if_pos]
  show (0 : ℚ) + taskT1.processingTime > cfgOversized.taktTime
  norm_num [taskT1, cfgOversized]

theorem cfgOversized_available :
    getAvailableTasks cfgOversized [] = [taskT1] := rfl

/-- C4: on `cfgOversized` the `generateSolution` loop never terminates,
whatever the priority rule: each iteration finds the oversized task
available, fails to admit it even into a fresh empty station, discards
the empty current station and retries from an identical state.  The
claim that `generateSolution` always terminates (stalling only when *no
task is available*) fails; the spec's `STALLED` terminal state is never
reached. -/
theorem generateSolution_loops_forever_on_oversized_task
    (prioritize : List Task → List Task)
    (hperm : ∀ l, (prioritize l).Perm l) :
    ∀ fuel : Nat, generateSolution cfgOversized prioritize fuel = none := by
  have hmain : ∀ fuel sid,
      genLoop cfgOversized prioritize fuel [] [] (mkStation sid) = none := by
    intro fuel
    induction fuel with
    | zero => intro sid; rfl
    | succ n ih =>
      intro sid
      have hord : prioritize [taskT1] = [taskT1] :=
        List.perm_singleton.mp (hperm [taskT1])
      unfold genLoop
      rw [if_pos (by norm_num [cfgOversized] : ([] : List String).length <
        cfgOversized.tasks.length)]
      simp only [cfgOversized_available, hord, List.length_cons,
        List.length_nil, List.find?]
      rw [cfgOversized_cannot_add]
      simp only [Nat.zero_ne_one, if_neg, mkStation, List.length_nil,
        Nat.lt_irrefl, Nat.zero_add]
      exact ih _
  intro fuel
  exact hmain fuel "S1"

/-- Witness for `generateSolution_loops_forever_on_oversized_task` with
the identity priority rule and fuel 5. -/
theorem generateSolution_loops_forever_witness :
    (∀ l : List Task, (id l).Perm l) ∧
    generateSolution cfgOversized id 5 = none := by
  have hperm : ∀ l : List Task, (id l).Perm l := fun l => List.Perm.refl l
  exact ⟨hperm, generateSolution_loops_forever_on_oversized_task id hperm 5⟩

/-! ## `precedence.js`

The recursive DFS of `hasCycles`, Kahn's queue loop in
`topologicalSort`, the memoized recursion of `getPositionalWeight` and
the breadth-first closure of `getAllSuccessors` are all unbounded in the
source; they are embedded with fuel (`none` = the source would still be
running), and the chosen fuel is proved sufficient where a claim needs
it. -/

/-- Overwrite the first binding of `k` in place (keys are unique in a
JS `Map`, so the first binding is the only one). -/
def replaceKey {β : Type} : List (String × β) → String → β → List (String × β)
  | [], _, _ => []
  | (k', v') :: rest, k, v =>
    if k' = k then (k, v) :: rest else (k', v') :: replaceKey rest k v

/-- JS `Map.prototype.set` for an arbitrary value type: overwrite in
place if present, append otherwise. -/
def aupsert {β : Type} (m : List (String × β)) (k : String) (v : β) :
    List (String × β) :=
  if (alookup m k).isSome then replaceKey m k v
  else m ++ [(k, v)]

/-- The direct-successor edge relation of a config
(`b ∈ config.successors.get(a)`). -/
def succEdge (c : ProblemConfig) (a b : String) : Prop := b ∈ getSuccs c a

instance (c : ProblemConfig) (a b : String) : Decidable (succEdge c a b) := by
  unfold succEdge
  exact inferInstance

/-- Well-formedness of a `ProblemConfig` as the `models.js` mutators
maintain it: unique task keys, precedence and successor lists over
existing tasks without duplicate entries, and the two adjacency maps
mutually consistent. -/
def WF (c : ProblemConfig) : Prop :=
  (taskKeys c).Nodup ∧
  (∀ p ∈ c.successors, p.1 ∈ taskKeys c ∧ p.2.Nodup ∧
    ∀ b ∈ p.2, b ∈ taskKeys c ∧ p.1 ∈ getPreds c b) ∧
  (∀ p ∈ c.precedence, p.1 ∈ taskKeys c ∧ p.2.Nodup ∧
    ∀ a ∈ p.2, a ∈ taskKeys c ∧ p.1 ∈ getSuccs c a)

/-- Absence of directed cycles in the successor relation. -/
def CycleFree (c : ProblemConfig) : Prop :=
  ∀ t, ¬ Relation.TransGen (succEdge c) t t

/-- The `for (const succ of successors)` loop body of the DFS in
`hasCycles`, parameterized by the recursive call `step`. -/
def dfsSuccs
    (step : String → List String → List String →
      Option (Bool × List String × List String)) :
    List String → List String → List String →
      Option (Bool × List String × List String)
  | [], visited, recStack => some (false, visited, recStack)
  | succ :: rest, visited, recStack =>
    if succ ∉ visited then
      match step succ visited recStack with
      | none => none
      | some (true, v, r) => some (true, v, r)
      | some (false, v, r) => dfsSuccs step rest v r
    else if succ ∈ recStack then some (true, visited, recStack)
    else dfsSuccs step rest visited recStack

/-- The recursive `dfs(taskId)` of `precedence.js` `hasCycles`, fuelled.
Returns the flag together with the updated `visited` and `recStack`
sets. -/
def dfsNode (c : ProblemConfig) : Nat → String → List String → List String →
    Option (Bool × List String × List String)
  | 0, _, _, _ => none
  | fuel + 1, taskId, visited, recStack =>
    match dfsSuccs (dfsNode c fuel) (getSuccs c taskId)
        (sadd visited taskId) (sadd recStack taskId) with
    | none => none
    | some (true, v, r) => some (true, v, r)
    | some (false, v, r) => some (false, v, r.erase taskId)

/-- The root loop of `hasCycles` over `config.tasks.keys()`. -/
def hasCyclesGo (c : ProblemConfig) (fuel : Nat) :
    List String → List String → List String → Option Bool
  | [], _, _ => some false
  | t :: rest, visited, recStack =>
    if t ∉ visited then
      match dfsNode c fuel t visited recStack with
      | none => none
      | some (true, _, _) => some true
      | some (false, v, r) => hasCyclesGo c fuel rest v r
    else hasCyclesGo c fuel rest visited recStack

/-- `precedence.js` `hasCycles(config)`; `none` would mean the supplied
fuel ran out, which `hasCycles_ne_none` rules out for well-formed
configs. -/
def hasCycles (c : ProblemConfig) : Option Bool :=
  hasCyclesGo c ((taskKeys c).length + 1) (taskKeys c) [] []

/-- One pass of the `for (const succ of successors)` decrement loop in
Kahn's algorithm.  A missing in-degree entry is JS `undefined`, and
`undefined - 1` is `NaN`, modelled as `none`; `NaN === 0` is false, so
such a key is never enqueued. -/
def kahnSuccs : List String → List (String × Option Int) → List String →
    (List (String × Option Int) × List String)
  | [], inDeg, queue => (inDeg, queue)
  | s :: rest, inDeg, queue =>
    let newVal : Option Int :=
      match alookup inDeg s with
      | some (some d) => some (d - 1)
      | some none => none
      | none => none
    let inDeg' := aupsert inDeg s newVal
    let queue' := if newVal = some 0 then queue ++ [s] else queue
    kahnSuccs rest inDeg' queue'

/-- The `while (queue.length > 0)` loop of `topologicalSort`, fuelled.
Each iteration shifts the queue head, appends
`config.tasks.get(current)` to the result and decrements the in-degree
of its successors, enqueueing those that reach zero. -/
def kahnLoop (c : ProblemConfig) : Nat → List String →
    List (String × Option Int) → List (Option Task) →
    Option (List (Option Task))
  | 0, queue, _, result => if queue.isEmpty then some result else none
  | fuel + 1, queue, inDeg, result =>
    match queue with
    | [] => some result
    | current :: queueRest =>
      let result' := result ++ [alookup c.tasks current]
      let p := kahnSuccs (getSuccs c current) inDeg queueRest
      kahnLoop c fuel p.2 p.1 result'

/-- `precedence.js` `topologicalSort(config)`: `none` is the source's
`null` (cycle detected, or fewer results than tasks); the fuel-exhausted
arms of `hasCycles`/`kahnLoop` also map to `none` but are proved
unreachable for well-formed configs. -/
def topologicalSort (c : ProblemConfig) : Option (List (Option Task)) :=
  match hasCycles c with
  | none => none
  | some true => none
  | some false =>
    let inDeg : List (String × Option Int) :=
      (taskKeys c).map (fun k => (k, some ((getPreds c k).length : Int)))
    let queue := inDeg.filterMap (fun p => if p.2 = some 0 then some p.1 else none)
    match kahnLoop c (c.tasks.length + 1) queue inDeg [] with
    | none => none
    | some result =>
      if result.length = c.tasks.length then some result else none

/-- The `for (const succ of successors)` accumulation loop of
`getPositionalWeight`, parameterized by the recursive call `step`;
threads the memo table through the successor calls. -/
def pwList
    (step : String → List (String × ℚ) → Option (ℚ × List (String × ℚ))) :
    List String → ℚ → List (String × ℚ) → Option (ℚ × List (String × ℚ))
  | [], acc, memo => some (acc, memo)
  | s :: rest, acc, memo =>
    match step s memo with
    | none => none
    | some (w, memo') => pwList step rest (acc + w) memo'

/-- `precedence.js` `getPositionalWeight(config, taskId, memo)`,
fuelled: the task's own processing time plus the positional weights of
its direct successors, memoized in the threaded table. -/
def getPositionalWeight (c : ProblemConfig) :
    Nat → String → List (String × ℚ) → Option (ℚ × List (String × ℚ))
  | 0, _, _ => none
  | fuel + 1, taskId, memo =>
    match alookup memo taskId with
    | some w => some (w, memo)
    | none =>
      match alookup c.tasks taskId with
      | none => some (0, memo)
      | some task =>
        match pwList (getPositionalWeight c fuel) (getSuccs c taskId)
            task.processingTime memo with
        | none => none
        | some (weight, memo') => some (weight, aupsert memo' taskId weight)

/-- Memoless companion of `getPositionalWeight`, used to state what the
memoized recursion computes. -/
def pwPlain (c : ProblemConfig) : Nat → String → Option ℚ
  | 0, _ => none
  | fuel + 1, taskId =>
    match alookup c.tasks taskId with
    | none => some 0
    | some task =>
      (pwPlainList c fuel (getSuccs c taskId)).map (task.processingTime + ·)
where
  /-- Sum of the memoless weights of a successor list. -/
  pwPlainList (c : ProblemConfig) : Nat → List String → Option ℚ
    | _, [] => some 0
    | fuel, s :: rest =>
      match pwPlain c fuel s, pwPlainList c fuel rest with
      | some w, some ws => some (w + ws)
      | _, _ => none

/-- The breadth-first queue loop of `getAllSuccessors`, fuelled.  The
`result` set is a list in insertion order. -/
def getAllSuccessorsGo (c : ProblemConfig) :
    Nat → List String → List String → List String
  | 0, _, result => result
  | fuel + 1, queue, result =>
    match queue with
    | [] => result
    | current :: rest =>
      if current ∉ result then
        getAllSuccessorsGo c fuel (rest ++ getSuccs c current)
          (result ++ [current])
      else getAllSuccessorsGo c fuel rest result

/-- `precedence.js` `getAllSuccessors(config, taskId)`: transitive
closure of the successor relation by BFS.  The fuel bounds the number of
dequeues, which never exceeds the number of enqueues: the initial queue
plus at most one successor-list expansion per distinct id. -/
def getAllSuccessors (c : ProblemConfig) (taskId : String) : List String :=
  getAllSuccessorsGo c
    ((getSuccs c taskId).length +
      (c.successors.map (fun p => p.2.length)).sum + c.tasks.length + 1)
    (getSuccs c taskId) []

theorem alookup_mem {β : Type} {m : List (String × β)} {k : String} {v : β}
    (h : alookup m k = some v) : (k, v) ∈ m := by
  induction m with
  | nil => exact absurd h (by simp [alookup])
  | cons p rest ih =>
    obtain ⟨pk, pv⟩ := p
    unfold alookup at h
    by_cases hk : pk = k
    · rw [if_pos hk] at h
      have hv : pv = v := Option.some_inj.mp h
      rw [← hk, ← hv]
      exact List.mem_cons_self _ _
    · rw [if_neg hk] at h
      exact List.mem_cons_of_mem _ (ih h)

theorem alookup_isSome_of_mem_keys {β : Type} {m : List (String × β)}
    {k : String} (h : k ∈ keysOf m) : (alookup m k).isSome := by
  induction m with
  | nil => simp [keysOf] at h
  | cons p rest ih =>
    unfold alookup
    by_cases hk : p.1 = k
    · rw [if_pos hk]; rfl
    · rw [if_neg hk]
      apply ih
      rcases List.mem_cons.mp h with h1 | h1
      · exact absurd h1.symm hk
      · exact h1

theorem alookup_none_of_not_mem_keys {β : Type} {m : List (String × β)}
    {k : String} (h : k ∉ keysOf m) : alookup m k = none := by
  induction m with
  | nil => rfl
  | cons p rest ih =>
    obtain ⟨pk, pv⟩ := p
    rw [keysOf, List.map_cons, List.mem_cons] at h
    push_neg at h
    simp only [alookup]
    rw [if_neg (fun he => h.1 he.symm)]
    exact ih h.2

theorem alookup_of_mem_nodup {β : Type} {m : List (String × β)} {k : String}
    {v : β} (hnd : (keysOf m).Nodup) (h : (k, v) ∈ m) : alookup m k = some v := by
  induction m with
  | nil => simp at h
  | cons p rest ih =>
    obtain ⟨pk, pv⟩ := p
    rw [keysOf, List.map_cons, List.nodup_cons] at hnd
    simp only [alookup]
    rcases List.mem_cons.mp h with h1 | h1
    · injection h1 with hk hv
      rw [if_pos hk.symm, ← hv]
    · have hk : pk ≠ k := by
        intro he
        have hmem : k ∈ keysOf rest := List.mem_map.mpr ⟨(k, v), h1, rfl⟩
        exact hnd.1 (he ▸ hmem)
      rw [if_neg hk]
      exact ih hnd.2 h1

theorem alookup_replace_self {β : Type} (m : List (String × β)) (k : String)
    (v : β) (h : (alookup m k).isSome) :
    alookup (replaceKey m k v) k = some v := by
  induction m with
  | nil => simp [alookup] at h
  | cons p rest ih =>
    obtain ⟨pk, pv⟩ := p
    by_cases hk : pk = k
    · rw [replaceKey, if_pos hk]
      simp [alookup]
    · have h' : (alookup rest k).isSome := by simpa [alookup, hk] using h
      rw [replaceKey, if_neg hk]
      simp only [alookup]
      rw [if_neg hk]
      exact ih h'

theorem alookup_replace_ne {β : Type} (m : List (String × β)) (k kO : String)
    (v : β) (hne : kO ≠ k) :
    alookup (replaceKey m k v) kO = alookup m kO := by
  induction m with
  | nil => rfl
  | cons p rest ih =>
    obtain ⟨pk, pv⟩ := p
    by_cases hk : pk = k
    · rw [replaceKey, if_pos hk]
      simp only [alookup]
      rw [if_neg (fun he => hne he.symm), if_neg (fun he => hne (hk ▸ he).symm)]
    · rw [replaceKey, if_neg hk]
      simp only [alookup]
      by_cases hp : pk = kO
      · rw [if_pos hp, if_pos hp]
      · rw [if_neg hp, if_neg hp]
        exact ih

theorem alookup_append_single_self {β : Type} (m : List (String × β))
    (k : String) (v : β) (h : alookup m k = none) :
    alookup (m ++ [(k, v)]) k = some v := by
  induction m with
  | nil => simp [alookup]
  | cons p rest ih =>
    obtain ⟨pk, pv⟩ := p
    simp only [alookup, List.cons_append] at h ⊢
    by_cases hk : pk = k
    · rw [if_pos hk] at h
      simp at h
    · rw [if_neg hk] at h ⊢
      exact ih h

theorem alookup_append_single_ne {β : Type} (m : List (String × β))
    (k kO : String) (v : β) (hne : kO ≠ k) :
    alookup (m ++ [(k, v)]) kO = alookup m kO := by
  induction m with
  | nil =>
    simp only [List.nil_append, alookup]
    rw [if_neg (fun he => hne he.symm)]
  | cons p rest ih =>
    obtain ⟨pk, pv⟩ := p
    simp only [alookup, List.cons_append]
    by_cases hp : pk = kO
    · rw [if_pos hp, if_pos hp]
    · rw [if_neg hp, if_neg hp]
      exact ih

theorem alookup_aupsert_self {β : Type} (m : List (String × β)) (k : String)
    (v : β) : alookup (aupsert m k v) k = some v := by
  unfold aupsert
  by_cases h : (alookup m k).isSome
  · rw [if_pos h]
    exact alookup_replace_self m k v h
  · rw [if_neg h]
    exact alookup_append_single_self m k v (Option.not_isSome_iff_eq_none.mp h)

theorem alookup_aupsert_ne {β : Type} (m : List (String × β)) (k kO : String)
    (v : β) (hne : kO ≠ k) :
    alookup (aupsert m k v) kO = alookup m kO := by
  unfold aupsert
  by_cases h : (alookup m k).isSome
  · rw [if_pos h]
    exact alookup_replace_ne m k kO v hne
  · rw [if_neg h]
    exact alookup_append_single_ne m k kO v hne

theorem WF.edge_in_keys {c : ProblemConfig} (hWF : WF c) {a b : String}
    (h : succEdge c a b) : a ∈ taskKeys c ∧ b ∈ taskKeys c := by
  unfold succEdge getSuccs at h
  rcases hl : alookup c.successors a with _ | l
  · rw [hl] at h
    simp at h
  · rw [hl] at h
    simp only [Option.getD_some] at h
    have hmem := alookup_mem hl
    obtain ⟨_, hsucc, _⟩ := hWF
    obtain ⟨hk, _, hall⟩ := hsucc (a, l) hmem
    exact ⟨hk, (hall b h).1⟩

theorem WF.edge_to_pred {c : ProblemConfig} (hWF : WF c) {a b : String}
    (h : succEdge c a b) : a ∈ getPreds c b := by
  unfold succEdge getSuccs at h
  rcases hl : alookup c.successors a with _ | l
  · rw [hl] at h
    simp at h
  · rw [hl] at h
    simp only [Option.getD_some] at h
    obtain ⟨_, hsucc, _⟩ := hWF
    exact ((hsucc (a, l) (alookup_mem hl)).2.2 b h).2

theorem WF.pred_to_edge {c : ProblemConfig} (hWF : WF c) {a b : String}
    (h : a ∈ getPreds c b) : succEdge c a b := by
  unfold getPreds at h
  rcases hl : alookup c.precedence b with _ | l
  · rw [hl] at h
    simp at h
  · rw [hl] at h
    simp only [Option.getD_some] at h
    obtain ⟨_, _, hprec⟩ := hWF
    exact ((hprec (b, l) (alookup_mem hl)).2.2 a h).2

theorem WF.pred_in_keys {c : ProblemConfig} (hWF : WF c) {a b : String}
    (h : a ∈ getPreds c b) : a ∈ taskKeys c ∧ b ∈ taskKeys c :=
  hWF.edge_in_keys (hWF.pred_to_edge h)

theorem WF.succs_nodup {c : ProblemConfig} (hWF : WF c) (a : String) :
    (getSuccs c a).Nodup := by
  unfold getSuccs
  rcases hl : alookup c.successors a with _ | l
  · simp
  · simp only [Option.getD_some]
    obtain ⟨_, hsucc, _⟩ := hWF
    exact (hsucc (a, l) (alookup_mem hl)).2.1

theorem WF.preds_nodup {c : ProblemConfig} (hWF : WF c) (b : String) :
    (getPreds c b).Nodup := by
  unfold getPreds
  rcases hl : alookup c.precedence b with _ | l
  · simp
  · simp only [Option.getD_some]
    obtain ⟨_, _, hprec⟩ := hWF
    exact (hprec (b, l) (alookup_mem hl)).2.1

theorem taskKeys_lookup {c : ProblemConfig} {t : String}
    (h : t ∈ taskKeys c) : ∃ task, alookup c.tasks t = some task := by
  have hs := alookup_isSome_of_mem_keys (m := c.tasks) h
  rcases hl : alookup c.tasks t with _ | task
  · rw [hl] at hs
    simp at hs
  · exact ⟨task, rfl⟩

/-- A ranking on the stored successor lists certifies acyclicity; used
to discharge `CycleFree` at concrete configs. -/
theorem cycleFree_of_rank (c : ProblemConfig) (rank : String → Nat)
    (h : ∀ p ∈ c.successors, ∀ b ∈ p.2, rank b < rank p.1) : CycleFree c := by
  have hedge : ∀ a b, succEdge c a b → rank b < rank a := by
    intro a b hab
    unfold succEdge getSuccs at hab
    rcases hl : alookup c.successors a with _ | l
    · rw [hl] at hab
      simp at hab
    · rw [hl] at hab
      simp only [Option.getD_some] at hab
      exact h (a, l) (alookup_mem hl) b hab
  have hmono : ∀ t u, Relation.TransGen (succEdge c) t u → rank u < rank t := by
    intro t u htu
    induction htu with
    | single hstep => exact hedge _ _ hstep
    | tail _ hstep ih => exact lt_trans (hedge _ _ hstep) ih
  intro t ht
  exact absurd (hmono t t ht) (lt_irrefl _)

/-- If every member of a nonempty finite set has an `R`-predecessor in
the set, `R` has a cycle. -/
theorem exists_cycle_of_forall_pred (S : List String) (hne : S ≠ [])
    (R : String → String → Prop) (h : ∀ k ∈ S, ∃ p, p ∈ S ∧ R p k) :
    ∃ t, Relation.TransGen R t t := by
  classical
  let pick : {x // x ∈ S} → {x // x ∈ S} := fun b =>
    ⟨Classical.choose (h b.1 b.2), (Classical.choose_spec (h b.1 b.2)).1⟩
  let f : ℕ → {x // x ∈ S} := fun n =>
    Nat.rec ⟨S.head hne, List.head_mem hne⟩ (fun _ prev => pick prev) n
  have hstep : ∀ n, R (f (n + 1)).1 (f n).1 := by
    intro n
    exact (Classical.choose_spec (h (f n).1 (f n).2)).2
  have hchain : ∀ i j, i < j → Relation.TransGen R (f j).1 (f i).1 := by
    intro i j hij
    induction j with
    | zero => omega
    | succ n ih =>
      rcases Nat.lt_succ_iff_lt_or_eq.mp hij with hlt | heq
      · exact (ih hlt).head (hstep n)
      · rw [heq]
        exact Relation.TransGen.single (hstep n)
  have hmaps : ∀ n ∈ Finset.range (S.length + 1), (f n).1 ∈ S.toFinset := by
    intro n _
    exact List.mem_toFinset.mpr (f n).2
  have hcard : S.toFinset.card < (Finset.range (S.length + 1)).card := by
    rw [Finset.card_range]
    exact Nat.lt_succ_of_le S.toFinset_card_le
  obtain ⟨i, _, j, _, hij, heq⟩ :=
    Finset.exists_ne_map_eq_of_card_lt_of_maps_to hcard hmaps
  rcases Nat.lt_or_ge i j with hlt | hge
  · exact ⟨(f i).1, heq ▸ hchain i j hlt⟩
  · have hlt : j < i := by omega
    exact ⟨(f j).1, heq ▸ hchain j i hlt⟩

theorem pwPlain_stable (c : ProblemConfig) : ∀ n : Nat,
    (∀ t w, pwPlain c n t = some w → pwPlain c (n + 1) t = some w) ∧
    (∀ l w, pwPlain.pwPlainList c n l = some w →
      pwPlain.pwPlainList c (n + 1) l = some w) := by
  intro n
  induction n with
  | zero =>
    constructor
    · intro t w h
      exact absurd h (by simp [pwPlain])
    · intro l w h
      cases l with
      | nil => simpa [pwPlain.pwPlainList] using h
      | cons s rest =>
        unfold pwPlain.pwPlainList at h
        simp [pwPlain] at h
  | succ n ih =>
    have hnode : ∀ t w, pwPlain c (n + 1) t = some w →
        pwPlain c (n + 1 + 1) t = some w := by
      intro t w h
      unfold pwPlain at h ⊢
      rcases hl : alookup c.tasks t with _ | task
      · rw [hl] at h
        exact h
      · rw [hl] at h
        rcases hlist : pwPlain.pwPlainList c n (getSuccs c t) with _ | ws
        · rw [hlist] at h
          simp at h
        · rw [hlist] at h
          rw [ih.2 _ _ hlist]
          exact h
    refine ⟨hnode, ?_⟩
    intro l
    induction l with
    | nil =>
      intro w h
      simpa [pwPlain.pwPlainList] using h
    | cons s rest ihl =>
      intro w h
      unfold pwPlain.pwPlainList at h ⊢
      rcases hs : pwPlain c (n + 1) s with _ | ws
      · rw [hs] at h
        simp at h
      · rw [hs] at h
        rcases hr : pwPlain.pwPlainList c (n + 1) rest with _ | wr
        · rw [hr] at h
          simp at h
        · rw [hr] at h
          rw [hnode _ _ hs, ihl _ hr]
          exact h

theorem pwPlain_mono (c : ProblemConfig) {n m : Nat} (hnm : n ≤ m) :
    ∀ t w, pwPlain c n t = some w → pwPlain c m t = some w := by
  induction m with
  | zero =>
    intro t w h
    rw [Nat.le_zero.mp hnm] at h
    exact h
  | succ m ih =>
    intro t w h
    rcases Nat.eq_or_lt_of_le hnm with heq | hlt
    · rw [← heq]
      exact h
    · exact (pwPlain_stable c m).1 t w (ih (Nat.lt_succ_iff.mp hlt) t w h)

theorem pwPlainList_mono (c : ProblemConfig) {n m : Nat} (hnm : n ≤ m) :
    ∀ l w, pwPlain.pwPlainList c n l = some w →
      pwPlain.pwPlainList c m l = some w := by
  induction m with
  | zero =>
    intro l w h
    rw [Nat.le_zero.mp hnm] at h
    exact h
  | succ m ih =>
    intro l w h
    rcases Nat.eq_or_lt_of_le hnm with heq | hlt
    · rw [← heq]
      exact h
    · exact (pwPlain_stable c m).2 l w (ih (Nat.lt_succ_iff.mp hlt) l w h)

theorem pwPlainList_eq_sum (c : ProblemConfig) : ∀ (l : List String) (n : Nat)
    (s : ℚ), pwPlain.pwPlainList c n l = some s →
    (∀ x ∈ l, (pwPlain c n x).isSome) ∧
    s = (l.map (fun x => (pwPlain c n x).getD 0)).sum := by
  intro l
  induction l with
  | nil =>
    intro n s h
    cases n <;> · simp only [pwPlain.pwPlainList] at h
                  simp [← Option.some_inj.mp h]
  | cons s0 rest ih =>
    intro n s h
    unfold pwPlain.pwPlainList at h
    rcases hs : pwPlain c n s0 with _ | w
    · rw [hs] at h
      simp at h
    · rw [hs] at h
      rcases hr : pwPlain.pwPlainList c n rest with _ | wr
      · rw [hr] at h
        simp at h
      · rw [hr] at h
        obtain ⟨hall, hsum⟩ := ih n wr hr
        constructor
        · intro x hx
          rcases List.mem_cons.mp hx with h1 | h1
          · rw [h1, hs]
            rfl
          · exact hall x h1
        · rw [List.map_cons, List.sum_cons, ← hsum, hs, ← Option.some_inj.mp h]
          rfl

theorem pwPlainList_some_of_each (c : ProblemConfig) (l : List String)
    (h : ∀ s ∈ l, ∃ n, (pwPlain c n s).isSome) :
    ∃ n, (pwPlain.pwPlainList c n l).isSome := by
  induction l with
  | nil => exact ⟨0, by simp [pwPlain.pwPlainList]⟩
  | cons s0 rest ih =>
    obtain ⟨n1, h1⟩ := h s0 (List.mem_cons_self _ _)
    obtain ⟨n2, h2⟩ := ih (fun s hs => h s (List.mem_cons_of_mem _ hs))
    refine ⟨max n1 n2, ?_⟩
    rcases Option.isSome_iff_exists.mp h1 with ⟨w1, hw1⟩
    rcases Option.isSome_iff_exists.mp h2 with ⟨w2, hw2⟩
    unfold pwPlain.pwPlainList
    rw [pwPlain_mono c (Nat.le_max_left n1 n2) _ _ hw1,
      pwPlainList_mono c (Nat.le_max_right n1 n2) _ _ hw2]
    rfl

theorem pwPlain_some (c : ProblemConfig) (hWF : WF c) (hacy : CycleFree c) :
    ∀ t ∈ taskKeys c, ∃ n, (pwPlain c n t).isSome := by
  classical
  let sub := {x // x ∈ taskKeys c}
  let r : sub → sub → Prop := fun a b => Relation.TransGen (succEdge c) b.1 a.1
  haveI : IsTrans sub r := ⟨fun a b d hab hbd => Relation.TransGen.trans hbd hab⟩
  haveI : IsIrrefl sub r := ⟨fun a har => hacy a.1 har⟩
  have hwf : WellFounded r := Finite.wellFounded_of_trans_of_irrefl r
  intro t ht
  suffices hsuf : ∀ a : sub, ∃ n, (pwPlain c n a.1).isSome from hsuf ⟨t, ht⟩
  intro a
  induction a using WellFounded.induction hwf with
  | _ a iha =>
    obtain ⟨task, htask⟩ := taskKeys_lookup a.2
    have hsuccs : ∀ s ∈ getSuccs c a.1, ∃ n, (pwPlain c n s).isSome := by
      intro s hs
      have hedge : succEdge c a.1 s := hs
      have hsk : s ∈ taskKeys c := (hWF.edge_in_keys hedge).2
      exact iha ⟨s, hsk⟩ (Relation.TransGen.single hedge)
    obtain ⟨n, hn⟩ := pwPlainList_some_of_each c (getSuccs c a.1) hsuccs
    refine ⟨n + 1, ?_⟩
    unfold pwPlain
    rw [htask]
    rcases Option.isSome_iff_exists.mp hn with ⟨w, hw⟩
    rw [hw]
    rfl

theorem pwPlain_unique (c : ProblemConfig) {n1 n2 : Nat} {t : String}
    {w1 w2 : ℚ} (h1 : pwPlain c n1 t = some w1)
    (h2 : pwPlain c n2 t = some w2) : w1 = w2 := by
  have e1 := pwPlain_mono c (Nat.le_max_left n1 n2) t w1 h1
  have e2 := pwPlain_mono c (Nat.le_max_right n1 n2) t w2 h2
  rw [e1] at e2
  exact Option.some_inj.mp e2

/-- Every memo entry records a genuine memoless positional weight. -/
def GoodMemo (c : ProblemConfig) (m : List (String × ℚ)) : Prop :=
  ∀ k w, alookup m k = some w → ∃ n, pwPlain c n k = some w

theorem pwList_sound (c : ProblemConfig) (n : Nat)
    (hstep : ∀ t m w m', GoodMemo c m →
      getPositionalWeight c n t m = some (w, m') →
      (∃ nn, pwPlain c nn t = some w) ∧ GoodMemo c m') :
    ∀ l acc m r m', GoodMemo c m →
      pwList (getPositionalWeight c n) l acc m = some (r, m') →
      (∃ nn s, pwPlain.pwPlainList c nn l = some s ∧ r = acc + s) ∧
      GoodMemo c m' := by
  intro l
  induction l with
  | nil =>
    intro acc m r m' hg h
    unfold pwList at h
    injection h with h
    injection h with h1 h2
    refine ⟨⟨0, 0, by simp [pwPlain.pwPlainList], by rw [← h1]; ring⟩, ?_⟩
    rw [← h2]
    exact hg
  | cons s0 rest ih =>
    intro acc m r m' hg h
    unfold pwList at h
    rcases hstep0 : getPositionalWeight c n s0 m with _ | p
    · rw [hstep0] at h
      simp at h
    · obtain ⟨w0, m1⟩ := p
      rw [hstep0] at h
      obtain ⟨⟨n1, hn1⟩, hg1⟩ := hstep s0 m w0 m1 hg hstep0
      obtain ⟨⟨n2, s2, hn2, hr⟩, hg'⟩ := ih (acc + w0) m1 r m' hg1 h
      refine ⟨⟨max n1 n2, w0 + s2, ?_, by rw [hr]; ring⟩, hg'⟩
      unfold pwPlain.pwPlainList
      rw [pwPlain_mono c (Nat.le_max_left n1 n2) _ _ hn1,
        pwPlainList_mono c (Nat.le_max_right n1 n2) _ _ hn2]

theorem pw_memo_sound (c : ProblemConfig) : ∀ n t m w m', GoodMemo c m →
    getPositionalWeight c n t m = some (w, m') →
    (∃ nn, pwPlain c nn t = some w) ∧ GoodMemo c m' := by
  intro n
  induction n with
  | zero =>
    intro t m w m' _ h
    exact absurd h (by simp [getPositionalWeight])
  | succ n ih =>
    intro t m w m' hg h
    unfold getPositionalWeight at h
    rcases hmemo : alookup m t with _ | w0
    · rw [hmemo] at h
      rcases htask : alookup c.tasks t with _ | task
      · rw [htask] at h
        injection h with h
        injection h with h1 h2
        refine ⟨⟨1, ?_⟩, by rw [← h2]; exact hg⟩
        unfold pwPlain
        rw [htask, ← h1]
      · rw [htask] at h
        replace h : (match pwList (getPositionalWeight c n) (getSuccs c t)
            task.processingTime m with
          | none => none
          | some (weight, memo') =>
            some (weight, aupsert memo' t weight)) = some (w, m') := h
        rcases hlist : pwList (getPositionalWeight c n) (getSuccs c t)
            task.processingTime m with _ | p
        · rw [hlist] at h
          simp at h
        · obtain ⟨weight, memo1⟩ := p
          rw [hlist] at h
          injection h with h
          injection h with h1 h2
          obtain ⟨⟨nn, s, hns, hw⟩, hg1⟩ := pwList_sound c n ih
            (getSuccs c t) task.processingTime m weight memo1 hg hlist
          have hplain : pwPlain c (nn + 1) t = some weight := by
            unfold pwPlain
            rw [htask, hns]
            simp [hw]
          refine ⟨⟨nn + 1, by rw [← h1]; exact hplain⟩, ?_⟩
          rw [← h2]
          intro k wk hk
          by_cases hkt : k = t
          · subst hkt
            rw [alookup_aupsert_self] at hk
            exact ⟨nn + 1, by rw [← Option.some_inj.mp hk]; exact hplain⟩
          · rw [alookup_aupsert_ne _ _ _ _ hkt] at hk
            exact hg1 k wk hk
    · rw [hmemo] at h
      injection h with h
      injection h with h1 h2
      refine ⟨?_, by rw [← h2]; exact hg⟩
      obtain ⟨nn, hnn⟩ := hg t w0 hmemo
      exact ⟨nn, by rw [← h1]; exact hnn⟩

theorem pwList_some (c : ProblemConfig) (n : Nat)
    (hstep : ∀ t m, (pwPlain c n t).isSome →
      (getPositionalWeight c n t m).isSome) :
    ∀ l acc m, (pwPlain.pwPlainList c n l).isSome →
      (pwList (getPositionalWeight c n) l acc m).isSome := by
  intro l
  induction l with
  | nil =>
    intro acc m _
    simp [pwList]
  | cons s0 rest ih =>
    intro acc m h
    unfold pwPlain.pwPlainList at h
    rcases hs : pwPlain c n s0 with _ | w0
    · rw [hs] at h
      simp at h
    · rw [hs] at h
      rcases hr : pwPlain.pwPlainList c n rest with _ | wr
      · rw [hr] at h
        simp at h
      · have hstep0 := hstep s0 m (by rw [hs]; rfl)
        rcases hm : getPositionalWeight c n s0 m with _ | p
        · rw [hm] at hstep0
          simp at hstep0
        · obtain ⟨w1, m1⟩ := p
          unfold pwList
          rw [hm]
          exact ih (acc + w1) m1 (by rw [hr]; rfl)

theorem pw_memo_some (c : ProblemConfig) : ∀ n t m,
    (pwPlain c n t).isSome → (getPositionalWeight c n t m).isSome := by
  intro n
  induction n with
  | zero =>
    intro t m h
    simp [pwPlain] at h
  | succ n ih =>
    intro t m h
    unfold getPositionalWeight
    rcases hmemo : alookup m t with _ | w0
    · rcases htask : alookup c.tasks t with _ | task
      · rfl
      · unfold pwPlain at h
        rw [htask] at h
        rcases hlist : pwPlain.pwPlainList c n (getSuccs c t) with _ | ws
        · rw [hlist] at h
          simp at h
        · have := pwList_some c n ih (getSuccs c t) task.processingTime m
            (by rw [hlist]; rfl)
          rcases hm : pwList (getPositionalWeight c n) (getSuccs c t)
              task.processingTime m with _ | p
          · rw [hm] at this
            simp at this
          · obtain ⟨w1, m1⟩ := p
            show (match pwList (getPositionalWeight c n) (getSuccs c t)
                task.processingTime m with
              | none => none
              | some (weight, memo') =>
                some (weight, aupsert memo' t weight)).isSome = true
            rw [hm]
            rfl
    · rfl

/-- C8 (amended): on a cycle-free well-formed config the memoized
`getPositionalWeight` of a task equals its own processing time plus the
sum of the positional weights of its *direct successors* — so a task
reachable along several precedence paths contributes once per path, not
once overall. -/
theorem getPositionalWeight_recurrence (c : ProblemConfig) (hWF : WF c)
    (hacy : CycleFree c) (t : String) (ht : t ∈ taskKeys c) :
    ∃ N, ∀ n, N ≤ n →
      ∃ w, (getPositionalWeight c n t []).map Prod.fst = some w ∧
      (∀ s ∈ getSuccs c t,
        ((getPositionalWeight c n s []).map Prod.fst).isSome) ∧
      w = ((alookup c.tasks t).map Task.processingTime).getD 0 +
        ((getSuccs c t).map (fun s =>
          ((getPositionalWeight c n s []).map Prod.fst).getD 0)).sum := by
  obtain ⟨task, htask⟩ := taskKeys_lookup ht
  obtain ⟨n0, h0⟩ := pwPlain_some c hWF hacy t ht
  obtain ⟨wt, hwt⟩ := Option.isSome_iff_exists.mp h0
  have hgood : GoodMemo c [] := fun k w hk => absurd hk (by simp [alookup])
  refine ⟨n0 + 1, ?_⟩
  intro n hn
  have hplain_n : pwPlain c n t = some wt :=
    pwPlain_mono c (le_trans (Nat.le_succ n0) hn) t wt hwt
  obtain ⟨k, rfl⟩ : ∃ k, n = k + 1 := ⟨n - 1, by omega⟩
  have hlist : ∃ sval, pwPlain.pwPlainList c k (getSuccs c t) = some sval ∧
      wt = task.processingTime + sval := by
    have h := hplain_n
    unfold pwPlain at h
    rw [htask] at h
    rcases hl : pwPlain.pwPlainList c k (getSuccs c t) with _ | sval
    · rw [hl] at h
      simp at h
    · rw [hl] at h
      refine ⟨sval, rfl, ?_⟩
      simp only [Option.map_some'] at h
      exact (Option.some_inj.mp h).symm
  obtain ⟨sval, hsval, hwt_eq⟩ := hlist
  obtain ⟨hsucc_some, hsum⟩ := pwPlainList_eq_sum c (getSuccs c t) k sval hsval
  have hmemo_t := pw_memo_some c (k + 1) t [] (by rw [hplain_n]; rfl)
  obtain ⟨⟨w, m'⟩, hmt⟩ := Option.isSome_iff_exists.mp hmemo_t
  obtain ⟨⟨nn, hnn⟩, _⟩ := pw_memo_sound c (k + 1) t [] w m' hgood hmt
  have hw_eq : w = wt := pwPlain_unique c hnn hplain_n
  have hsucc_memo : ∀ s ∈ getSuccs c t,
      ((getPositionalWeight c (k + 1) s []).map Prod.fst).getD 0 =
        (pwPlain c k s).getD 0 ∧
      ((getPositionalWeight c (k + 1) s []).map Prod.fst).isSome := by
    intro s hs
    obtain ⟨vs, hvs⟩ := Option.isSome_iff_exists.mp (hsucc_some s hs)
    have hs1 : pwPlain c (k + 1) s = some vs :=
      pwPlain_mono c (Nat.le_succ k) s vs hvs
    have hms := pw_memo_some c (k + 1) s [] (by rw [hs1]; rfl)
    obtain ⟨⟨ws, ms⟩, hws⟩ := Option.isSome_iff_exists.mp hms
    obtain ⟨⟨nns, hnns⟩, _⟩ := pw_memo_sound c (k + 1) s [] ws ms hgood hws
    have hv : ws = vs := pwPlain_unique c hnns hs1
    constructor
    · rw [hws, hvs]
      simp [hv]
    · rw [hws]
      rfl
  refine ⟨w, by rw [hmt]; rfl, fun s hs => (hsucc_memo s hs).2, ?_⟩
  rw [hw_eq, hwt_eq, hsum, htask]
  simp only [Option.map_some', Option.getD_some]
  congr 1
  rw [(List.map_congr_left (fun s hs => (hsucc_memo s hs).1)).symm]

/-- Diamond-precedence fixture: `A → B → D`, `A → C → D` with
processing times 1, 2, 3, 4. -/
def cfgDiamond : ProblemConfig :=
  { tasks := [("A", { id := "A", processingTime := 1, toolType := "M1", envScore := 1 }),
              ("B", { id := "B", processingTime := 2, toolType := "M1", envScore := 1 }),
              ("C", { id := "C", processingTime := 3, toolType := "M1", envScore := 1 }),
              ("D", { id := "D", processingTime := 4, toolType := "M1", envScore := 1 })]
    precedence := [("A", []), ("B", ["A"]), ("C", ["A"]), ("D", ["B", "C"])]
    successors := [("A", ["B", "C"]), ("B", ["D"]), ("C", ["D"]), ("D", [])]
    taktTime := 10, toolLimits := [("M1", 9)]
    weights := { economic := 1, social := 1, environmental := 1 } }

set_option maxHeartbeats 2000000 in
/-- C8 counterexample: on the diamond, `getPositionalWeight("A")`
returns `1 + (2+4) + (3+4) = 14`, counting the shared transitive
successor `D` twice, while the claimed formula — own time plus the time
of each *distinct* transitive successor (`getAllSuccessors`) counted
once — gives `1 + 2 + 3 + 4 = 10`. -/
theorem getPositionalWeight_double_counts_diamond :
    (getPositionalWeight cfgDiamond 10 "A" []).map Prod.fst = some 14 ∧
    getAllSuccessors cfgDiamond "A" = ["B", "C", "D"] ∧
    ((alookup cfgDiamond.tasks "A").map Task.processingTime).getD 0 +
      ((getAllSuccessors cfgDiamond "A").map (fun s =>
        ((alookup cfgDiamond.tasks s).map Task.processingTime).getD 0)).sum = 10 ∧
    (14 : ℚ) ≠ 10 := by
  have hsucc : getAllSuccessors cfgDiamond "A" = ["B", "C", "D"] := by
    simp +decide [getAllSuccessors, getAllSuccessorsGo, getSuccs, alookup,
      cfgDiamond, taskKeys, keysOf]
  refine ⟨?_, hsucc, ?_, by norm_num⟩
  · simp +decide [getPositionalWeight, pwList, alookup, aupsert, replaceKey,
      getSuccs, cfgDiamond]
    norm_num
  · rw [hsucc]
    simp +decide [alookup, cfgDiamond]
    norm_num

/-- Witness for `getPositionalWeight_recurrence` on the diamond
fixture. -/
theorem getPositionalWeight_recurrence_witness :
    (WF cfgDiamond ∧ CycleFree cfgDiamond ∧ "A" ∈ taskKeys cfgDiamond) ∧
    (∃ N, ∀ n, N ≤ n →
      ∃ w, (getPositionalWeight cfgDiamond n "A" []).map Prod.fst = some w ∧
      (∀ s ∈ getSuccs cfgDiamond "A",
        ((getPositionalWeight cfgDiamond n s []).map Prod.fst).isSome) ∧
      w = ((alookup cfgDiamond.tasks "A").map Task.processingTime).getD 0 +
        ((getSuccs cfgDiamond "A").map (fun s =>
          ((getPositionalWeight cfgDiamond n s []).map Prod.fst).getD 0)).sum) := by
  have hWF : WF cfgDiamond := by
    unfold WF
    decide
  have hacy : CycleFree cfgDiamond := by
    apply cycleFree_of_rank cfgDiamond
      (fun s => if s = "A" then 3 else if s = "D" then 1 else 2)
    decide
  have ht : "A" ∈ taskKeys cfgDiamond := by decide
  exact ⟨⟨hWF, hacy, ht⟩,
    getPositionalWeight_recurrence cfgDiamond hWF hacy "A" ht⟩

/-! ### Correctness of the `hasCycles` DFS

Colour terminology for the invariants: a node is *grey* while on the
recursion stack, *black* once visited and off the stack.  In a run that
has not yet reported a cycle, black nodes have only black successors and
lie on no cycle; the recursion stack is a path of successor edges. -/

/-- The recursion stack is contained in the visited set. -/
def StackSub (K V : List String) : Prop := ∀ x ∈ K, x ∈ V

/-- Every successor of a black node is black. -/
def BlackClosed (c : ProblemConfig) (V K : List String) : Prop :=
  ∀ x ∈ V, x ∉ K → ∀ y, succEdge c x y → y ∈ V ∧ y ∉ K

/-- No black node lies on a directed cycle. -/
def BlackAcyclic (c : ProblemConfig) (V K : List String) : Prop :=
  ∀ x ∈ V, x ∉ K → ¬ Relation.TransGen (succEdge c) x x

/-- The recursion stack (top first) is a chain of successor edges. -/
def StackChain (c : ProblemConfig) (K : List String) : Prop :=
  List.Chain' (fun x y => succEdge c y x) K

/-- The successor relation has a directed cycle. -/
def HasCycleIn (c : ProblemConfig) : Prop :=
  ∃ t, Relation.TransGen (succEdge c) t t

theorem black_reach {c : ProblemConfig} {V K : List String}
    (hcl : BlackClosed c V K) {y z : String} (hy : y ∈ V) (hyK : y ∉ K)
    (h : Relation.ReflTransGen (succEdge c) y z) : z ∈ V ∧ z ∉ K := by
  induction h with
  | refl => exact ⟨hy, hyK⟩
  | tail _ hedge ih => exact hcl _ ih.1 ih.2 _ hedge

theorem chain_reach (c : ProblemConfig) : ∀ (tl : List String) (hd : String),
    StackChain c (hd :: tl) → ∀ s ∈ hd :: tl,
    Relation.ReflTransGen (succEdge c) s hd := by
  intro tl
  induction tl with
  | nil =>
    intro hd _ s hs
    rw [List.mem_singleton.mp hs]
  | cons x rest ih =>
    intro hd hchain s hs
    have hx : succEdge c x hd := (List.chain'_cons.mp hchain).1
    rcases List.mem_cons.mp hs with h1 | h1
    · rw [h1]
    · exact (ih x (List.chain'_cons.mp hchain).2 s h1).tail hx

/-- The specification a single DFS call must satisfy: `true` results
certify a cycle; `false` results restore the stack, grow the visited
set, mark the node black and preserve the colour invariants. -/
def DfsNodeOk (c : ProblemConfig)
    (step : String → List String → List String →
      Option (Bool × List String × List String)) : Prop :=
  ∀ t V K, t ∉ V → StackSub K V → BlackClosed c V K → BlackAcyclic c V K →
    StackChain c (t :: K) →
    (∀ VT KT, step t V K = some (true, VT, KT) → HasCycleIn c) ∧
    (∀ VF KF, step t V K = some (false, VF, KF) →
      KF = K ∧ V ⊆ VF ∧ t ∈ VF ∧ StackSub K VF ∧
      BlackClosed c VF K ∧ BlackAcyclic c VF K)

theorem dfsSuccs_spec (c : ProblemConfig)
    (step : String → List String → List String →
      Option (Bool × List String × List String))
    (hstep : DfsNodeOk c step) :
    ∀ (l : List String) (hd : String) (tl : List String) (V : List String),
      (∀ s ∈ l, succEdge c hd s) →
      StackSub (hd :: tl) V → BlackClosed c V (hd :: tl) →
      BlackAcyclic c V (hd :: tl) → StackChain c (hd :: tl) →
      (∀ VT KT, dfsSuccs step l V (hd :: tl) = some (true, VT, KT) →
        HasCycleIn c) ∧
      (∀ VF KF, dfsSuccs step l V (hd :: tl) = some (false, VF, KF) →
        KF = hd :: tl ∧ V ⊆ VF ∧ StackSub (hd :: tl) VF ∧
        BlackClosed c VF (hd :: tl) ∧ BlackAcyclic c VF (hd :: tl) ∧
        ∀ s ∈ l, s ∈ VF ∧ s ∉ hd :: tl) := by
  intro l
  induction l with
  | nil =>
    intro hd tl V _ hsub hcl hac _
    constructor
    · intro VT KT h
      unfold dfsSuccs at h
      simp at h
    · intro VF KF h
      unfold dfsSuccs at h
      injection h with h
      injection h with h1 h2
      injection h2 with h2 h3
      refine ⟨h3.symm, by rw [← h2]; exact List.Subset.refl V,
        by rw [← h2]; exact hsub,
        by rw [← h2]; exact hcl, by rw [← h2]; exact hac, ?_⟩
      intro s hs
      simp at hs
  | cons s rest ih =>
    intro hd tl V hl hsub hcl hac hchain
    have hledge : succEdge c hd s := hl s (List.mem_cons_self _ _)
    by_cases hv : s ∈ V
    · by_cases hk : s ∈ hd :: tl
      · have hred : dfsSuccs step (s :: rest) V (hd :: tl) =
            some (true, V, hd :: tl) := by
          simp only [dfsSuccs]
          rw [if_neg (by simpa using hv), if_pos hk]
        constructor
        · intro VT KT _
          refine ⟨s, Relation.TransGen.tail' (chain_reach c tl hd hchain s hk)
            hledge⟩
        · intro VF KF h
          rw [hred] at h
          injection h with h
          injection h with h1 _
          simp at h1
      · have hred : dfsSuccs step (s :: rest) V (hd :: tl) =
            dfsSuccs step rest V (hd :: tl) := by
          simp only [dfsSuccs]
          rw [if_neg (by simpa using hv), if_neg hk]
        rw [hred]
        have hrest := ih hd tl V (fun x hx => hl x (List.mem_cons_of_mem _ hx))
          hsub hcl hac hchain
        refine ⟨hrest.1, ?_⟩
        intro VF KF h
        obtain ⟨hKF, hVV, hss, hcl', hac', hall⟩ := hrest.2 VF KF h
        refine ⟨hKF, hVV, hss, hcl', hac', ?_⟩
        intro x hx
        rcases List.mem_cons.mp hx with h1 | h1
        · rw [h1]
          exact ⟨hVV hv, hk⟩
        · exact hall x h1
    · have hchild := hstep s V (hd :: tl) hv hsub hcl hac
        (List.chain'_cons.mpr ⟨hledge, hchain⟩)
      rcases hres : step s V (hd :: tl) with _ | ⟨b, V1, K1⟩
      · have hred : dfsSuccs step (s :: rest) V (hd :: tl) = none := by
          unfold dfsSuccs
          rw [if_pos (by simpa using hv), hres]
        rw [hred]
        exact ⟨fun _ _ h => absurd h (by simp),
          fun _ _ h => absurd h (by simp)⟩
      · cases b with
        | true =>
          have hred : dfsSuccs step (s :: rest) V (hd :: tl) =
              some (true, V1, K1) := by
            simp only [dfsSuccs]
            rw [if_pos (by simpa using hv), hres]
          rw [hred]
          constructor
          · intro VT KT _
            exact hchild.1 V1 K1 hres
          · intro VF KF h
            injection h with h
            injection h with h1 _
            simp at h1
        | false =>
          obtain ⟨hK1, hVV1, hs1, hss1, hcl1, hac1⟩ := hchild.2 V1 K1 hres
          have hred : dfsSuccs step (s :: rest) V (hd :: tl) =
              dfsSuccs step rest V1 (hd :: tl) := by
            simp only [dfsSuccs]
            rw [if_pos (by simpa using hv), hres, hK1]
          rw [hred]
          have hrest := ih hd tl V1 (fun x hx => hl x (List.mem_cons_of_mem _ hx))
            hss1 hcl1 hac1 hchain
          refine ⟨hrest.1, ?_⟩
          intro VF KF h
          obtain ⟨hKF, hV1V, hss', hcl', hac', hall⟩ := hrest.2 VF KF h
          refine ⟨hKF, fun x hx => hV1V (hVV1 hx), hss', hcl', hac', ?_⟩
          intro x hx
          rcases List.mem_cons.mp hx with h1 | h1
          · rw [h1]
            refine ⟨hV1V hs1, fun hmem => hv (hsub s hmem)⟩
          · exact hall x h1

theorem dfsNode_ok (c : ProblemConfig) : ∀ n, DfsNodeOk c (dfsNode c n) := by
  intro n
  induction n with
  | zero =>
    intro t V K _ _ _ _ _
    exact ⟨fun _ _ h => absurd h (by simp [dfsNode]),
      fun _ _ h => absurd h (by simp [dfsNode])⟩
  | succ n ih =>
    intro t V K htV hsub hcl hac hchain
    have htK : t ∉ K := fun h => htV (hsub t h)
    have hV : sadd V t = t :: V := by unfold sadd; rw [if_neg htV]
    have hK : sadd K t = t :: K := by unfold sadd; rw [if_neg htK]
    have hsub' : StackSub (t :: K) (t :: V) := by
      intro x hx
      rcases List.mem_cons.mp hx with h1 | h1
      · rw [h1]; exact List.mem_cons_self _ _
      · exact List.mem_cons_of_mem _ (hsub x h1)
    have hcl' : BlackClosed c (t :: V) (t :: K) := by
      intro x hx hxK y hedge
      have hxt : x ≠ t := fun h => hxK (h ▸ List.mem_cons_self _ _)
      have hxV : x ∈ V := (List.mem_cons.mp hx).resolve_left hxt
      have hxK' : x ∉ K := fun h => hxK (List.mem_cons_of_mem _ h)
      obtain ⟨hyV, hyK⟩ := hcl x hxV hxK' y hedge
      refine ⟨List.mem_cons_of_mem _ hyV, ?_⟩
      intro hy
      rcases List.mem_cons.mp hy with h1 | h1
      · rw [h1] at hyV; exact htV hyV
      · exact hyK h1
    have hac' : BlackAcyclic c (t :: V) (t :: K) := by
      intro x hx hxK
      have hxt : x ≠ t := fun h => hxK (h ▸ List.mem_cons_self _ _)
      have hxV : x ∈ V := (List.mem_cons.mp hx).resolve_left hxt
      exact hac x hxV (fun h => hxK (List.mem_cons_of_mem _ h))
    have hspec := dfsSuccs_spec c (dfsNode c n) ih (getSuccs c t) t K (t :: V)
      (fun s hs => hs) hsub' hcl' hac' hchain
    have hnode : dfsNode c (n + 1) t V K =
        (match dfsSuccs (dfsNode c n) (getSuccs c t) (t :: V) (t :: K) with
         | none => none
         | some (true, v, r) => some (true, v, r)
         | some (false, v, r) => some (false, v, r.erase t)) := by
      rw [← hV, ← hK]
      rfl
    rcases hres : dfsSuccs (dfsNode c n) (getSuccs c t) (t :: V) (t :: K)
      with _ | ⟨b, V1, K1⟩
    · rw [hres] at hnode
      exact ⟨fun _ _ h => absurd (hnode ▸ h) (by simp),
        fun _ _ h => absurd (hnode ▸ h) (by simp)⟩
    · rw [hres] at hnode
      cases b with
      | true =>
        refine ⟨fun VT KT _ => hspec.1 V1 K1 hres, ?_⟩
        intro VF KF h
        rw [hnode] at h
        injection h with h
        injection h with h1 _
        simp at h1
      | false =>
        obtain ⟨hKFe, hVV1, hss, hcl1, hac1, hall⟩ := hspec.2 V1 K1 hres
        refine ⟨?_, ?_⟩
        · intro VT KT h
          rw [hnode] at h
          injection h with h
          injection h with h1 _
          simp at h1
        · intro VF KF h
          rw [hnode] at h
          injection h with h
          injection h with _ h2
          injection h2 with h2 h3
          have hKF : KF = K := by
            rw [← h3, hKFe, List.erase_cons_head]
          have hVF : VF = V1 := h2.symm
          subst hVF
          refine ⟨hKF, fun x hx => hVV1 (List.mem_cons_of_mem _ hx),
            hVV1 (List.mem_cons_self _ _),
            fun x hx => hss x (List.mem_cons_of_mem _ hx), ?_, ?_⟩
          · intro x hx hxK y hedge
            by_cases hxt : x = t
            · subst hxt
              obtain ⟨hyV, hyK⟩ := hall y hedge
              exact ⟨hyV, fun h => hyK (List.mem_cons_of_mem _ h)⟩
            · have hxK' : x ∉ t :: K := by
                intro h
                rcases List.mem_cons.mp h with h1 | h1
                · exact hxt h1
                · exact hxK h1
              obtain ⟨hyV, hyK⟩ := hcl1 x hx hxK' y hedge
              exact ⟨hyV, fun h => hyK (List.mem_cons_of_mem _ h)⟩
          · intro x hx hxK hcyc
            by_cases hxt : x = t
            · subst hxt
              obtain ⟨y, hedge, hrt⟩ := Relation.TransGen.head'_iff.mp hcyc
              obtain ⟨hyV, hyK⟩ := hall y hedge
              obtain ⟨_, htK'⟩ := black_reach hcl1 hyV hyK hrt
              exact htK' (List.mem_cons_self _ _)
            · have hxK' : x ∉ t :: K := by
                intro h
                rcases List.mem_cons.mp h with h1 | h1
                · exact hxt h1
                · exact hxK h1
              exact hac1 x hx hxK' hcyc

theorem hasCyclesGo_spec (c : ProblemConfig) (fuel : Nat) :
    ∀ (roots V : List String),
      BlackClosed c V [] → BlackAcyclic c V [] →
      (hasCyclesGo c fuel roots V [] = some true → HasCycleIn c) ∧
      (hasCyclesGo c fuel roots V [] = some false →
        ∀ x, x ∈ V ∨ x ∈ roots → ¬ Relation.TransGen (succEdge c) x x) := by
  intro roots
  induction roots with
  | nil =>
    intro V _ hac
    constructor
    · intro h
      unfold hasCyclesGo at h
      simp at h
    · intro _ x hx hcyc
      rcases hx with hx | hx
      · exact hac x hx (by simp) hcyc
      · simp at hx
  | cons t rest ih =>
    intro V hcl hac
    by_cases htV : t ∈ V
    · have hred : hasCyclesGo c fuel (t :: rest) V [] =
          hasCyclesGo c fuel rest V [] := by
        simp only [hasCyclesGo]
        rw [if_neg (by simpa using htV)]
      rw [hred]
      obtain ⟨h1, h2⟩ := ih V hcl hac
      refine ⟨h1, ?_⟩
      intro h x hx
      rcases hx with hx | hx
      · exact h2 h x (Or.inl hx)
      · rcases List.mem_cons.mp hx with h3 | h3
        · exact h2 h x (Or.inl (h3 ▸ htV))
        · exact h2 h x (Or.inr h3)
    · have hok := dfsNode_ok c fuel t V [] htV
        (fun x hx => absurd hx (List.not_mem_nil x)) hcl hac
        (List.chain'_singleton _)
      rcases hres : dfsNode c fuel t V [] with _ | ⟨b, V1, K1⟩
      · have hred : hasCyclesGo c fuel (t :: rest) V [] = none := by
          simp only [hasCyclesGo]
          rw [if_pos htV, hres]
        rw [hred]
        exact ⟨fun h => absurd h (by simp), fun h => absurd h (by simp)⟩
      · cases b with
        | true =>
          have hred : hasCyclesGo c fuel (t :: rest) V [] = some true := by
            simp only [hasCyclesGo]
            rw [if_pos htV, hres]
          rw [hred]
          refine ⟨fun _ => hok.1 V1 K1 hres, ?_⟩
          intro h
          injection h with h
          simp at h
        | false =>
          obtain ⟨hK1, hVV1, htV1, _, hcl1, hac1⟩ := hok.2 V1 K1 hres
          subst hK1
          have hred : hasCyclesGo c fuel (t :: rest) V [] =
              hasCyclesGo c fuel rest V1 [] := by
            simp only [hasCyclesGo]
            rw [if_pos htV, hres]
          rw [hred]
          obtain ⟨h1, h2⟩ := ih V1 hcl1 hac1
          refine ⟨h1, ?_⟩
          intro h x hx
          rcases hx with hx | hx
          · exact h2 h x (Or.inl (hVV1 hx))
          · rcases List.mem_cons.mp hx with h3 | h3
            · exact h2 h x (Or.inl (h3 ▸ htV1))
            · exact h2 h x (Or.inr h3)

/-- Number of task keys not yet visited; it bounds the depth of the DFS
recursion, so `taskKeys.length + 1` fuel always suffices. -/
def unseenCount (c : ProblemConfig) (V : List String) : Nat :=
  List.countP (fun x => decide (x ∉ V)) (taskKeys c)

theorem unseenCount_mono (c : ProblemConfig) {V V' : List String}
    (h : V ⊆ V') : unseenCount c V' ≤ unseenCount c V := by
  unfold unseenCount
  apply List.countP_mono_left
  intro x _ hx
  simp only [decide_eq_true_eq] at hx ⊢
  exact fun hxV => hx (h hxV)

theorem countP_unseen_lt {t : String} {V : List String} (htV : t ∉ V) :
    ∀ l : List String, t ∈ l →
      List.countP (fun x => decide (x ∉ t :: V)) l <
        List.countP (fun x => decide (x ∉ V)) l := by
  intro l
  induction l with
  | nil => intro h; exact absurd h (List.not_mem_nil t)
  | cons a rest ih =>
    intro hmem
    rw [List.countP_cons, List.countP_cons]
    have hmono : List.countP (fun x => decide (x ∉ t :: V)) rest ≤
        List.countP (fun x => decide (x ∉ V)) rest := by
      apply List.countP_mono_left
      intro x _ hx
      simp only [decide_eq_true_eq, List.mem_cons, not_or] at hx ⊢
      exact hx.2
    by_cases hat : a = t
    · subst hat
      have hp : decide (a ∉ a :: V) = false := by simp
      have hq : decide (a ∉ V) = true := by simpa using htV
      rw [hp, hq]
      simp only [Bool.false_eq_true, if_false, if_true]
      omega
    · have hrest : t ∈ rest := by
        rcases List.mem_cons.mp hmem with h1 | h1
        · exact absurd h1.symm hat
        · exact h1
      have hih := ih hrest
      have hhead : (if decide (a ∉ t :: V) = true then 1 else 0) ≤
          (if decide (a ∉ V) = true then 1 else 0) := by
        by_cases ha : a ∉ t :: V
        · have haV : a ∉ V := fun h => ha (List.mem_cons_of_mem _ h)
          simp [ha, haV]
        · have haV : a ∈ V := by
            rcases List.mem_cons.mp (not_not.mp ha) with h1 | h1
            · exact absurd h1 hat
            · exact h1
          simp [ha, haV]
      omega

theorem dfsNode_some (c : ProblemConfig) (hwf : WF c) : ∀ n t V K,
    t ∈ taskKeys c → t ∉ V → StackSub K V → BlackClosed c V K →
    BlackAcyclic c V K → StackChain c (t :: K) →
    unseenCount c V ≤ n → (dfsNode c n t V K).isSome := by
  intro n
  induction n with
  | zero =>
    intro t V K htk htV _ _ _ _ hn
    exfalso
    have hpos : 0 < unseenCount c V := by
      unfold unseenCount
      rw [List.countP_pos_iff]
      exact ⟨t, htk, by simpa using htV⟩
    omega
  | succ n ih =>
    intro t V K htk htV hsub hcl hac hchain hn
    have htK : t ∉ K := fun h => htV (hsub t h)
    have hV : sadd V t = t :: V := by unfold sadd; rw [if_neg htV]
    have hK : sadd K t = t :: K := by unfold sadd; rw [if_neg htK]
    have hnode : dfsNode c (n + 1) t V K =
        (match dfsSuccs (dfsNode c n) (getSuccs c t) (t :: V) (t :: K) with
         | none => none
         | some (true, v, r) => some (true, v, r)
         | some (false, v, r) => some (false, v, r.erase t)) := by
      rw [← hV, ← hK]
      rfl
    have hsub' : StackSub (t :: K) (t :: V) := by
      intro x hx
      rcases List.mem_cons.mp hx with h1 | h1
      · rw [h1]; exact List.mem_cons_self _ _
      · exact List.mem_cons_of_mem _ (hsub x h1)
    have hcl' : BlackClosed c (t :: V) (t :: K) := by
      intro x hx hxK y hedge
      have hxt : x ≠ t := fun h => hxK (h ▸ List.mem_cons_self _ _)
      have hxV : x ∈ V := (List.mem_cons.mp hx).resolve_left hxt
      have hxK' : x ∉ K := fun h => hxK (List.mem_cons_of_mem _ h)
      obtain ⟨hyV, hyK⟩ := hcl x hxV hxK' y hedge
      refine ⟨List.mem_cons_of_mem _ hyV, ?_⟩
      intro hy
      rcases List.mem_cons.mp hy with h1 | h1
      · rw [h1] at hyV; exact htV hyV
      · exact hyK h1
    have hac' : BlackAcyclic c (t :: V) (t :: K) := by
      intro x hx hxK
      have hxt : x ≠ t := fun h => hxK (h ▸ List.mem_cons_self _ _)
      have hxV : x ∈ V := (List.mem_cons.mp hx).resolve_left hxt
      exact hac x hxV (fun h => hxK (List.mem_cons_of_mem _ h))
    have hlt : unseenCount c (t :: V) < unseenCount c V :=
      countP_unseen_lt htV (taskKeys c) htk
    have hunseen : unseenCount c (t :: V) ≤ n := by omega
    have hlist : ∀ (l : List String), (∀ s ∈ l, succEdge c t s) →
        ∀ V', t :: V ⊆ V' → StackSub (t :: K) V' →
          BlackClosed c V' (t :: K) → BlackAcyclic c V' (t :: K) →
          (dfsSuccs (dfsNode c n) l V' (t :: K)).isSome := by
      intro l
      induction l with
      | nil =>
        intro _ V' _ _ _ _
        simp [dfsSuccs]
      | cons s rest ihl =>
        intro hl V' hVV' hss hcl1 hac1
        have hedge : succEdge c t s := hl s (List.mem_cons_self _ _)
        have hstk : s ∈ taskKeys c := (hwf.edge_in_keys hedge).2
        by_cases hsv : s ∈ V'
        · by_cases hsk : s ∈ t :: K
          · have hred : dfsSuccs (dfsNode c n) (s :: rest) V' (t :: K) =
                some (true, V', t :: K) := by
              simp only [dfsSuccs]
              rw [if_neg (by simpa using hsv), if_pos hsk]
            rw [hred]
            rfl
          · have hred : dfsSuccs (dfsNode c n) (s :: rest) V' (t :: K) =
                dfsSuccs (dfsNode c n) rest V' (t :: K) := by
              simp only [dfsSuccs]
              rw [if_neg (by simpa using hsv), if_neg hsk]
            rw [hred]
            exact ihl (fun x hx => hl x (List.mem_cons_of_mem _ hx)) V'
              hVV' hss hcl1 hac1
        · have hchain' : StackChain c (s :: t :: K) :=
            List.chain'_cons.mpr ⟨hedge, hchain⟩
          have hun' : unseenCount c V' ≤ n :=
            le_trans (unseenCount_mono c hVV') hunseen
          have hcall := ih s V' (t :: K) hstk hsv hss hcl1 hac1 hchain' hun'
          rcases hres : dfsNode c n s V' (t :: K) with _ | ⟨b, V1, K1⟩
          · rw [hres] at hcall
            simp at hcall
          · cases b with
            | true =>
              have hred : dfsSuccs (dfsNode c n) (s :: rest) V' (t :: K) =
                  some (true, V1, K1) := by
                simp only [dfsSuccs]
                rw [if_pos hsv, hres]
              rw [hred]
              rfl
            | false =>
              have hok := (dfsNode_ok c n s V' (t :: K) hsv hss hcl1 hac1
                hchain').2 V1 K1 hres
              obtain ⟨hK1, hV'V1, hs1, hss1, hcl2, hac2⟩ := hok
              subst hK1
              have hred : dfsSuccs (dfsNode c n) (s :: rest) V' (t :: K) =
                  dfsSuccs (dfsNode c n) rest V1 (t :: K) := by
                simp only [dfsSuccs]
                rw [if_pos hsv, hres]
              rw [hred]
              exact ihl (fun x hx => hl x (List.mem_cons_of_mem _ hx)) V1
                (fun x hx => hV'V1 (hVV' hx)) hss1 hcl2 hac2
    have hfin := hlist (getSuccs c t) (fun s hs => hs) (t :: V)
      (List.Subset.refl _) hsub' hcl' hac'
    rw [hnode]
    rcases hres : dfsSuccs (dfsNode c n) (getSuccs c t) (t :: V) (t :: K)
      with _ | ⟨b, V1, K1⟩
    · rw [hres] at hfin
      simp at hfin
    · cases b <;> rfl

theorem hasCyclesGo_some (c : ProblemConfig) (hwf : WF c) (fuel : Nat)
    (hfuel : (taskKeys c).length < fuel) :
    ∀ (roots V : List String), (∀ x ∈ roots, x ∈ taskKeys c) →
      BlackClosed c V [] → BlackAcyclic c V [] →
      (hasCyclesGo c fuel roots V []).isSome := by
  intro roots
  induction roots with
  | nil =>
    intro V _ _ _
    simp [hasCyclesGo]
  | cons t rest ih =>
    intro V hroots hcl hac
    by_cases htV : t ∈ V
    · have hred : hasCyclesGo c fuel (t :: rest) V [] =
          hasCyclesGo c fuel rest V [] := by
        simp only [hasCyclesGo]
        rw [if_neg (by simpa using htV)]
      rw [hred]
      exact ih V (fun x hx => hroots x (List.mem_cons_of_mem _ hx)) hcl hac
    · have htk := hroots t (List.mem_cons_self _ _)
      have hsome := dfsNode_some c hwf fuel t V [] htk htV
        (fun x hx => absurd hx (List.not_mem_nil x)) hcl hac
        (List.chain'_singleton _)
        (by
          have h1 : unseenCount c V ≤ (taskKeys c).length := by
            unfold unseenCount
            exact List.countP_le_length _
          omega)
      rcases hres : dfsNode c fuel t V [] with _ | ⟨b, V1, K1⟩
      · rw [hres] at hsome
        simp at hsome
      · cases b with
        | true =>
          have hred : hasCyclesGo c fuel (t :: rest) V [] = some true := by
            simp only [hasCyclesGo]
            rw [if_pos htV, hres]
          rw [hred]
          rfl
        | false =>
          have hok := (dfsNode_ok c fuel t V [] htV
            (fun x hx => absurd hx (List.not_mem_nil x)) hcl hac
            (List.chain'_singleton _)).2 V1 K1 hres
          obtain ⟨hK1, hVV1, htV1, _, hcl1, hac1⟩ := hok
          subst hK1
          have hred : hasCyclesGo c fuel (t :: rest) V [] =
              hasCyclesGo c fuel rest V1 [] := by
            simp only [hasCyclesGo]
            rw [if_pos htV, hres]
          rw [hred]
          exact ih V1 (fun x hx => hroots x (List.mem_cons_of_mem _ hx))
            hcl1 hac1

theorem hasCycles_correct (c : ProblemConfig) (hwf : WF c) :
    (CycleFree c → hasCycles c = some false) ∧
    (¬ CycleFree c → hasCycles c = some true) := by
  have hsome : (hasCycles c).isSome := by
    unfold hasCycles
    exact hasCyclesGo_some c hwf _ (Nat.lt_succ_self _) (taskKeys c) []
      (fun x hx => hx)
      (fun x hx => absurd hx (List.not_mem_nil x))
      (fun x hx => absurd hx (List.not_mem_nil x))
  have hspec := hasCyclesGo_spec c ((taskKeys c).length + 1) (taskKeys c) []
    (fun x hx => absurd hx (List.not_mem_nil x))
    (fun x hx => absurd hx (List.not_mem_nil x))
  constructor
  · intro hcf
    rcases hres : hasCycles c with _ | b
    · rw [hres] at hsome
      simp at hsome
    · cases b with
      | false => rfl
      | true =>
        obtain ⟨w, hw⟩ := hspec.1 hres
        exact absurd hw (hcf w)
  · intro hncf
    rcases hres : hasCycles c with _ | b
    · rw [hres] at hsome
      simp at hsome
    · cases b with
      | true => rfl
      | false =>
        exfalso
        apply hncf
        intro x hcyc
        have hedge : ∃ y, succEdge c x y :=
          ⟨_, (Relation.TransGen.head'_iff.mp hcyc).choose_spec.1⟩
        have hxk : x ∈ taskKeys c := (hwf.edge_in_keys hedge.choose_spec).1
        exact hspec.2 hres x (Or.inr hxk) hcyc

/-! ### Correctness of the Kahn loop in `topologicalSort` -/

/-- The value `inDegree.get(succ) - 1` that one decrement step of the
Kahn loop stores (`none` is JS `NaN`). -/
def kdec (inDeg : List (String × Option Int)) (k : String) : Option Int :=
  match alookup inDeg k with
  | some (some d) => some (d - 1)
  | some none => none
  | none => none

theorem keysOf_replaceKey {β : Type} :
    ∀ (m : List (String × β)) (k : String) (v : β),
      (alookup m k).isSome → keysOf (replaceKey m k v) = keysOf m := by
  intro m k v h
  induction m with
  | nil => simp [alookup] at h
  | cons p rest ih =>
    obtain ⟨pk, pv⟩ := p
    by_cases hpk : pk = k
    · subst hpk
      rw [show replaceKey ((pk, pv) :: rest) pk v = (pk, v) :: rest from by
        rw [replaceKey, if_pos rfl]]
      simp [keysOf]
    · have h' : (alookup rest k).isSome := by simpa [alookup, hpk] using h
      rw [show replaceKey ((pk, pv) :: rest) k v = (pk, pv) :: replaceKey rest k v
        from by rw [replaceKey, if_neg hpk]]
      have hrest := ih h'
      unfold keysOf at hrest ⊢
      simp only [List.map_cons]
      rw [hrest]

theorem keysOf_aupsert {β : Type} (m : List (String × β)) (k : String) (v : β)
    (h : (alookup m k).isSome) : keysOf (aupsert m k v) = keysOf m := by
  unfold aupsert
  rw [if_pos h]
  exact keysOf_replaceKey m k v h

theorem alookup_map_pair {β : Type} (g : String → β) :
    ∀ (l : List String) (k : String), k ∈ l →
      alookup (l.map (fun x => (x, g x))) k = some (g k) := by
  intro l
  induction l with
  | nil => intro k h; simp at h
  | cons a rest ih =>
    intro k h
    simp only [List.map_cons, alookup]
    by_cases hak : a = k
    · subst hak
      rw [if_pos rfl]
    · rw [if_neg hak]
      rcases List.mem_cons.mp h with h1 | h1
      · exact absurd h1.symm hak
      · exact ih k h1

theorem kahnSuccs_eq : ∀ (l : List String) (inDeg : List (String × Option Int))
    (queue : List String), l.Nodup → (∀ s ∈ l, (alookup inDeg s).isSome) →
    keysOf (kahnSuccs l inDeg queue).1 = keysOf inDeg ∧
    (∀ k, alookup (kahnSuccs l inDeg queue).1 k =
      if k ∈ l then some (kdec inDeg k) else alookup inDeg k) ∧
    (kahnSuccs l inDeg queue).2 =
      queue ++ l.filter (fun k => decide (kdec inDeg k = some 0)) := by
  intro l
  induction l with
  | nil =>
    intro inDeg queue _ _
    refine ⟨rfl, ?_, by simp [kahnSuccs]⟩
    intro k
    rw [if_neg (List.not_mem_nil k)]
    rfl
  | cons s rest ih =>
    intro inDeg queue hnd hpres
    have hs : (alookup inDeg s).isSome := hpres s (List.mem_cons_self _ _)
    have hstep : kahnSuccs (s :: rest) inDeg queue =
        kahnSuccs rest (aupsert inDeg s (kdec inDeg s))
          (if kdec inDeg s = some 0 then queue ++ [s] else queue) := rfl
    have hsrest : s ∉ rest := (List.nodup_cons.mp hnd).1
    have hndrest : rest.Nodup := (List.nodup_cons.mp hnd).2
    have hpres' : ∀ x ∈ rest, (alookup (aupsert inDeg s (kdec inDeg s)) x).isSome := by
      intro x hx
      have hxs : x ≠ s := fun h => hsrest (h ▸ hx)
      rw [alookup_aupsert_ne inDeg s x _ hxs]
      exact hpres x (List.mem_cons_of_mem _ hx)
    have hkd : ∀ x, x ≠ s → kdec (aupsert inDeg s (kdec inDeg s)) x = kdec inDeg x := by
      intro x hxs
      unfold kdec
      rw [alookup_aupsert_ne inDeg s x _ hxs]
    obtain ⟨hkeys, hpt, hq⟩ := ih (aupsert inDeg s (kdec inDeg s))
      (if kdec inDeg s = some 0 then queue ++ [s] else queue) hndrest hpres'
    rw [hstep]
    refine ⟨?_, ?_, ?_⟩
    · rw [hkeys, keysOf_aupsert inDeg s _ hs]
    · intro k
      by_cases hkl : k ∈ s :: rest
      · rcases List.mem_cons.mp hkl with h1 | h1
        · subst h1
          rw [if_pos hkl, hpt k, if_neg hsrest, alookup_aupsert_self]
        · have hks : k ≠ s := fun h => hsrest (h ▸ h1)
          rw [if_pos hkl, hpt k, if_pos h1, hkd k hks]
      · have hks : k ≠ s := fun h => hkl (h ▸ List.mem_cons_self _ _)
        have hkr : k ∉ rest := fun h => hkl (List.mem_cons_of_mem _ h)
        rw [if_neg hkl, hpt k, if_neg hkr, alookup_aupsert_ne inDeg s k _ hks]
    · rw [hq]
      have hfr : rest.filter
            (fun k => decide (kdec (aupsert inDeg s (kdec inDeg s)) k = some 0)) =
          rest.filter (fun k => decide (kdec inDeg k = some 0)) := by
        apply List.filter_congr
        intro x hx
        have hxs : x ≠ s := fun h => hsrest (h ▸ hx)
        rw [hkd x hxs]
      rw [hfr]
      by_cases h0 : kdec inDeg s = some 0
      · rw [if_pos h0, List.filter_cons_of_pos (by simp [h0]), List.append_assoc]
        rfl
      · rw [if_neg h0, List.filter_cons_of_neg (by simp [h0])]

theorem filter_out_one {a : String} {done : List String} (ha : a ∉ done) :
    ∀ l : List String, l.Nodup → a ∈ l →
      (l.filter (fun x => decide (x ∉ done ++ [a]))).length + 1 =
        (l.filter (fun x => decide (x ∉ done))).length := by
  intro l
  induction l with
  | nil => intro _ h; simp at h
  | cons b rest ih =>
    intro hnd hmem
    have hnb : b ∉ rest := (List.nodup_cons.mp hnd).1
    have hndr : rest.Nodup := (List.nodup_cons.mp hnd).2
    by_cases hba : b = a
    · subst hba
      rw [List.filter_cons_of_neg (by simp), List.filter_cons_of_pos (by simp [ha])]
      have heq : rest.filter (fun x => decide (x ∉ done ++ [b])) =
          rest.filter (fun x => decide (x ∉ done)) := by
        apply List.filter_congr
        intro x hx
        apply decide_eq_decide.mpr
        have hxb : x ≠ b := fun h => hnb (h ▸ hx)
        simp [List.mem_append, hxb]
      rw [heq, List.length_cons]
    · have hmr : a ∈ rest := by
        rcases List.mem_cons.mp hmem with h1 | h1
        · exact absurd h1.symm hba
        · exact h1
      have hih := ih hndr hmr
      by_cases hbd : b ∈ done
      · rw [List.filter_cons_of_neg (by simp [hbd]),
          List.filter_cons_of_neg (by simp [hbd])]
        exact hih
      · have hbda : b ∉ done ++ [a] := by
          simp only [List.mem_append, List.mem_singleton]
          rintro (h | h)
          · exact hbd h
          · exact hba h
        rw [List.filter_cons_of_pos (by simpa using hbda),
          List.filter_cons_of_pos (by simpa using hbd)]
        simp only [List.length_cons]
        omega

theorem filter_done_extend (done : List String) {a : String} :
    ∀ l : List String, a ∉ l →
      l.filter (fun x => decide (x ∉ done ++ [a])) =
        l.filter (fun x => decide (x ∉ done)) := by
  intro l hal
  apply List.filter_congr
  intro x hx
  apply decide_eq_decide.mpr
  have hxa : x ≠ a := fun h => hal (h ▸ hx)
  simp [List.mem_append, hxa]

theorem get_append_length {α : Type} :
    ∀ (l : List α) (a : α) (h : l.length < (l ++ [a]).length),
      (l ++ [a]).get ⟨l.length, h⟩ = a := by
  intro l a
  induction l with
  | nil => intro h; rfl
  | cons b rest ih =>
    intro h
    exact ih (by simp only [List.cons_append, List.length_cons,
      List.length_append, List.length_singleton] at h ⊢; omega)

/-- Every emitted task's direct predecessors were emitted earlier. -/
def OrderOK (c : ProblemConfig) (done : List String) : Prop :=
  ∀ n (hn : n < done.length), ∀ p ∈ getPreds c (done.get ⟨n, hn⟩),
    p ∈ done.take n

/-- Invariant of the Kahn queue loop: `done` is the emitted prefix,
`queue` the pending zero-degree tasks, and `inDeg` records for every
task the number of its not-yet-emitted predecessors. -/
def KahnInv (c : ProblemConfig) (done queue : List String)
    (inDeg : List (String × Option Int)) : Prop :=
  done.Nodup ∧ queue.Nodup ∧ (∀ k ∈ queue, k ∉ done) ∧
  (∀ k ∈ done, k ∈ taskKeys c) ∧ (∀ k ∈ queue, k ∈ taskKeys c) ∧
  keysOf inDeg = taskKeys c ∧
  (∀ k ∈ taskKeys c, alookup inDeg k =
    some (some (((getPreds c k).filter (fun p => decide (p ∉ done))).length : Int))) ∧
  (∀ k ∈ taskKeys c, ((∀ p ∈ getPreds c k, p ∈ done) ↔ (k ∈ done ∨ k ∈ queue))) ∧
  OrderOK c done

theorem kahnInv_step (c : ProblemConfig) (hwf : WF c)
    (done queueRest : List String) (inDeg : List (String × Option Int))
    (current : String)
    (hinv : KahnInv c done (current :: queueRest) inDeg) :
    KahnInv c (done ++ [current])
      (kahnSuccs (getSuccs c current) inDeg queueRest).2
      (kahnSuccs (getSuccs c current) inDeg queueRest).1 := by
  obtain ⟨hdnd, hqnd, hdisj, hdk, hqk, hkeys, hdeg, hiff, hord⟩ := hinv
  have hck : current ∈ taskKeys c := hqk current (List.mem_cons_self _ _)
  have hcd : current ∉ done := hdisj current (List.mem_cons_self _ _)
  have hcq : current ∉ queueRest := (List.nodup_cons.mp hqnd).1
  have hqrnd : queueRest.Nodup := (List.nodup_cons.mp hqnd).2
  have hsnd : (getSuccs c current).Nodup := hwf.succs_nodup current
  have hsin : ∀ s ∈ getSuccs c current, s ∈ taskKeys c := fun s hs =>
    (hwf.edge_in_keys (show succEdge c current s from hs)).2
  have hpres : ∀ s ∈ getSuccs c current, (alookup inDeg s).isSome := by
    intro s hs
    rw [hdeg s (hsin s hs)]
    rfl
  obtain ⟨hK, hP, hQ⟩ := kahnSuccs_eq (getSuccs c current) inDeg queueRest
    hsnd hpres
  have hkdec : ∀ k ∈ taskKeys c, kdec inDeg k =
      some ((((getPreds c k).filter (fun p => decide (p ∉ done))).length : Int) - 1) := by
    intro k hk
    unfold kdec
    rw [hdeg k hk]
  have hQmem : ∀ k, k ∈ (kahnSuccs (getSuccs c current) inDeg queueRest).2 ↔
      k ∈ queueRest ∨ (k ∈ getSuccs c current ∧ kdec inDeg k = some 0) := by
    intro k
    rw [hQ]
    simp only [List.mem_append, List.mem_filter, decide_eq_true_eq]
  have hqdone : ∀ k ∈ current :: queueRest, ∀ p ∈ getPreds c k, p ∈ done :=
    fun k hk => (hiff k (hqk k hk)).mpr (Or.inr hk)
  have hzeroD : ∀ (D : List String) k, (∀ p ∈ getPreds c k, p ∈ D) →
      ((getPreds c k).filter (fun p => decide (p ∉ D))).length = 0 := by
    intro D k hk
    rw [List.length_eq_zero, List.filter_eq_nil_iff]
    intro p hp
    simp only [decide_eq_true_eq]
    exact not_not.mpr (hk p hp)
  have hcount1 : ∀ k, k ∈ getSuccs c current → kdec inDeg k = some 0 →
      ((getPreds c k).filter (fun p => decide (p ∉ done))).length = 1 := by
    intro k hks hk0
    have h1 := hkdec k (hsin k hks)
    rw [hk0] at h1
    injection h1 with h1
    omega
  have hnotdoneq : ∀ k, k ∈ getSuccs c current → kdec inDeg k = some 0 →
      ¬(k ∈ done ∨ k ∈ current :: queueRest) := by
    intro k hks hk0 hmem
    have hsub := (hiff k (hsin k hks)).mpr hmem
    have h0 := hzeroD done k hsub
    have h1 := hcount1 k hks hk0
    omega
  refine ⟨?_, ?_, ?_, ?_, ?_, ?_, ?_, ?_, ?_⟩
  · rw [List.nodup_append]
    exact ⟨hdnd, List.nodup_singleton _,
      fun x hx hxc => hcd ((List.mem_singleton.mp hxc) ▸ hx)⟩
  · rw [hQ, List.nodup_append]
    refine ⟨hqrnd, hsnd.filter _, ?_⟩
    intro x hx hxf
    obtain ⟨hxs, hx0⟩ := List.mem_filter.mp hxf
    simp only [decide_eq_true_eq] at hx0
    exact hnotdoneq x hxs hx0
      (Or.inr (List.mem_cons_of_mem _ hx))
  · intro k hk
    rcases (hQmem k).mp hk with h1 | ⟨hks, hk0⟩
    · intro hmem
      rcases List.mem_append.mp hmem with h2 | h2
      · exact hdisj k (List.mem_cons_of_mem _ h1) h2
      · exact hcq ((List.mem_singleton.mp h2) ▸ h1)
    · intro hmem
      rcases List.mem_append.mp hmem with h2 | h2
      · exact hnotdoneq k hks hk0 (Or.inl h2)
      · exact hnotdoneq k hks hk0
          (Or.inr ((List.mem_singleton.mp h2) ▸ List.mem_cons_self _ _))
  · intro k hk
    rcases List.mem_append.mp hk with h1 | h1
    · exact hdk k h1
    · exact (List.mem_singleton.mp h1) ▸ hck
  · intro k hk
    rcases (hQmem k).mp hk with h1 | ⟨hks, _⟩
    · exact hqk k (List.mem_cons_of_mem _ h1)
    · exact hsin k hks
  · rw [hK, hkeys]
  · intro k hk
    rw [hP k]
    by_cases hks : k ∈ getSuccs c current
    · rw [if_pos hks, hkdec k hk]
      have hpk : current ∈ getPreds c k :=
        hwf.edge_to_pred (show succEdge c current k from hks)
      have hfo := filter_out_one hcd (getPreds c k) (hwf.preds_nodup k) hpk
      have hne : ((((getPreds c k).filter (fun p => decide (p ∉ done))).length : Int) - 1) =
          ((((getPreds c k).filter
              (fun p => decide (p ∉ done ++ [current]))).length : Int)) := by
        omega
      rw [hne]
    · rw [if_neg hks, hdeg k hk]
      have hcp : current ∉ getPreds c k := fun h => hks (hwf.pred_to_edge h)
      rw [filter_done_extend done (getPreds c k) hcp]
  · intro k hk
    constructor
    · intro hsub
      by_cases hsubold : ∀ p ∈ getPreds c k, p ∈ done
      · rcases (hiff k hk).mp hsubold with h1 | h1
        · exact Or.inl (List.mem_append_left _ h1)
        · rcases List.mem_cons.mp h1 with h2 | h2
          · exact Or.inl (List.mem_append_right _ (h2 ▸ List.mem_singleton_self _))
          · exact Or.inr ((hQmem k).mpr (Or.inl h2))
      · push_neg at hsubold
        obtain ⟨p0, hp0, hp0d⟩ := hsubold
        have hp0c : p0 = current := by
          rcases List.mem_append.mp (hsub p0 hp0) with h2 | h2
          · exact absurd h2 hp0d
          · exact List.mem_singleton.mp h2
        have hpk : current ∈ getPreds c k := hp0c ▸ hp0
        have hks : k ∈ getSuccs c current := hwf.pred_to_edge hpk
        have hnew0 := hzeroD (done ++ [current]) k hsub
        have hfo := filter_out_one hcd (getPreds c k) (hwf.preds_nodup k) hpk
        have hk0 : kdec inDeg k = some 0 := by
          rw [hkdec k hk]
          have : ((((getPreds c k).filter
              (fun p => decide (p ∉ done))).length : Int) - 1) = 0 := by
            omega
          rw [this]
        exact Or.inr ((hQmem k).mpr (Or.inr ⟨hks, hk0⟩))
    · intro hmem
      rcases hmem with h1 | h1
      · rcases List.mem_append.mp h1 with h2 | h2
        · intro p hp
          exact List.mem_append_left _ ((hiff k hk).mpr (Or.inl h2) p hp)
        · intro p hp
          exact List.mem_append_left _
            (hqdone k ((List.mem_singleton.mp h2) ▸ List.mem_cons_self _ _) p hp)
      · rcases (hQmem k).mp h1 with h2 | ⟨hks, hk0⟩
        · intro p hp
          exact List.mem_append_left _
            (hqdone k (List.mem_cons_of_mem _ h2) p hp)
        · intro p hp
          by_cases hpd : p ∈ done
          · exact List.mem_append_left _ hpd
          · have hpk : current ∈ getPreds c k :=
              hwf.edge_to_pred (show succEdge c current k from hks)
            have hkF : current ∈ (getPreds c k).filter
                (fun p => decide (p ∉ done)) :=
              List.mem_filter.mpr ⟨hpk, by simp [hcd]⟩
            have hpF : p ∈ (getPreds c k).filter
                (fun p => decide (p ∉ done)) :=
              List.mem_filter.mpr ⟨hp, by simp [hpd]⟩
            obtain ⟨x, hx⟩ := List.length_eq_one.mp (hcount1 k hks hk0)
            rw [hx] at hkF hpF
            have : p = current :=
              (List.mem_singleton.mp hpF).trans (List.mem_singleton.mp hkF).symm
            exact List.mem_append_right _ (this ▸ List.mem_singleton_self _)
  · intro n hn
    have hn' : n < done.length + 1 := by simpa using hn
    by_cases hlt : n < done.length
    · have hget : (done ++ [current]).get ⟨n, hn⟩ = done.get ⟨n, hlt⟩ :=
        List.get_append n hlt
      rw [hget, List.take_append_of_le_length (Nat.le_of_lt hlt)]
      exact hord n hlt
    · have hne : n = done.length := by omega
      subst hne
      rw [get_append_length done current hn,
        List.take_append_of_le_length (Nat.le_refl _), List.take_length]
      exact hqdone current (List.mem_cons_self _ _)

theorem kahnLoop_ok (c : ProblemConfig) (hwf : WF c) (hcf : CycleFree c) :
    ∀ (fuel : Nat) (done queue : List String)
      (inDeg : List (String × Option Int)),
      KahnInv c done queue inDeg →
      (taskKeys c).length < fuel + done.length →
      ∃ donef : List String,
        kahnLoop c fuel queue inDeg (done.map (fun k => alookup c.tasks k)) =
          some (donef.map (fun k => alookup c.tasks k)) ∧
        donef.Perm (taskKeys c) ∧ OrderOK c donef := by
  intro fuel
  induction fuel with
  | zero =>
    intro done queue inDeg hinv hb
    exfalso
    obtain ⟨hdnd, _, _, hdk, _, _, _, _, _⟩ := hinv
    have hsp : done.Subperm (taskKeys c) := hdnd.subperm (fun x hx => hdk x hx)
    have hle := hsp.length_le
    omega
  | succ fuel ih =>
    intro done queue inDeg hinv hb
    cases queue with
    | nil =>
      obtain ⟨hdnd, _, _, hdk, _, _, _, hiff, hord⟩ := hinv
      have hsub : ∀ k ∈ taskKeys c, k ∈ done := by
        by_contra hcon
        push_neg at hcon
        have hpred : ∀ k ∈ (taskKeys c).filter (fun k => decide (k ∉ done)),
            ∃ p, p ∈ (taskKeys c).filter (fun k => decide (k ∉ done)) ∧
              succEdge c p k := by
          intro k hkS
          obtain ⟨hkk, hkd⟩ := List.mem_filter.mp hkS
          simp only [decide_eq_true_eq] at hkd
          have hnot : ¬ (∀ p ∈ getPreds c k, p ∈ done) := by
            intro hall
            rcases (hiff k hkk).mp hall with h | h
            · exact hkd h
            · simp at h
          push_neg at hnot
          obtain ⟨p, hp, hpd⟩ := hnot
          have hpk := (hwf.pred_in_keys hp).1
          exact ⟨p, List.mem_filter.mpr ⟨hpk, by simp [hpd]⟩,
            hwf.pred_to_edge hp⟩
        have hne : (taskKeys c).filter (fun k => decide (k ∉ done)) ≠ [] := by
          obtain ⟨k0, hk0, hk0d⟩ := hcon
          intro hSe
          have hmem : k0 ∈ (taskKeys c).filter (fun k => decide (k ∉ done)) :=
            List.mem_filter.mpr ⟨hk0, by simp [hk0d]⟩
          rw [hSe] at hmem
          simp at hmem
        obtain ⟨t, ht⟩ := exists_cycle_of_forall_pred _ hne (succEdge c) hpred
        exact hcf t ht
      have hperm : done.Perm (taskKeys c) :=
        (hdnd.subperm (fun x hx => hdk x hx)).antisymm
          ((hwf.1).subperm (fun x hx => hsub x hx))
      exact ⟨done, rfl, hperm, hord⟩
    | cons current queueRest =>
      have hred : kahnLoop c (fuel + 1) (current :: queueRest) inDeg
          (done.map (fun k => alookup c.tasks k)) =
          kahnLoop c fuel (kahnSuccs (getSuccs c current) inDeg queueRest).2
            (kahnSuccs (getSuccs c current) inDeg queueRest).1
            ((done.map (fun k => alookup c.tasks k)) ++
              [alookup c.tasks current]) := rfl
      have hinv' := kahnInv_step c hwf done queueRest inDeg current hinv
      have hb' : (taskKeys c).length < fuel + (done ++ [current]).length := by
        simp only [List.length_append, List.length_singleton]
        omega
      obtain ⟨donef, hres, hperm, hordf⟩ := ih (done ++ [current]) _ _ hinv' hb'
      refine ⟨donef, ?_, hperm, hordf⟩
      rw [hred]
      rw [show (done.map (fun k => alookup c.tasks k)) ++
          [alookup c.tasks current] =
          (done ++ [current]).map (fun k => alookup c.tasks k) from by
        rw [List.map_append]
        rfl]
      exact hres

theorem init_queue_eq (c : ProblemConfig) : ∀ l : List String,
    (l.map (fun k => (k, some ((getPreds c k).length : Int)))).filterMap
      (fun p => if p.2 = some 0 then some p.1 else none) =
    l.filter (fun k => decide ((getPreds c k).length = 0)) := by
  intro l
  induction l with
  | nil => rfl
  | cons a rest ih =>
    simp only [List.map_cons, List.filterMap_cons]
    by_cases h0 : (getPreds c a).length = 0
    · rw [if_pos (by rw [h0]; rfl), List.filter_cons_of_pos (by simp [h0]), ih]
    · have hne : ¬ ((a, some ((getPreds c a).length : Int)).2 = some 0) := by
        intro hc
        injection hc with hc
        omega
      rw [if_neg hne, List.filter_cons_of_neg (by simp [h0]), ih]

theorem kahnInv_init (c : ProblemConfig) (hwf : WF c) :
    KahnInv c []
      (((taskKeys c).map
          (fun k => (k, some ((getPreds c k).length : Int)))).filterMap
        (fun p => if p.2 = some 0 then some p.1 else none))
      ((taskKeys c).map (fun k => (k, some ((getPreds c k).length : Int)))) := by
  rw [init_queue_eq c (taskKeys c)]
  refine ⟨List.nodup_nil, hwf.1.filter _, ?_, ?_, ?_, ?_, ?_, ?_, ?_⟩
  · intro k _
    exact List.not_mem_nil k
  · intro k hk
    exact absurd hk (List.not_mem_nil k)
  · intro k hk
    exact (List.mem_filter.mp hk).1
  · unfold keysOf
    rw [List.map_map]
    have hc : (Prod.fst ∘ fun k => (k, some ((getPreds c k).length : Int))) =
        id := rfl
    rw [hc, List.map_id]
  · intro k hk
    rw [alookup_map_pair _ (taskKeys c) k hk]
    rw [show (getPreds c k).filter (fun p => decide (p ∉ ([] : List String))) =
        getPreds c k from List.filter_eq_self.mpr (fun a _ => by simp)]
  · intro k hk
    constructor
    · intro hsub
      right
      apply List.mem_filter.mpr
      refine ⟨hk, ?_⟩
      simp only [decide_eq_true_eq]
      rw [List.length_eq_zero, List.eq_nil_iff_forall_not_mem]
      intro p hp
      exact absurd (hsub p hp) (List.not_mem_nil p)
    · intro hmem p hp
      rcases hmem with h | h
      · simp at h
      · obtain ⟨_, h0⟩ := List.mem_filter.mp h
        simp only [decide_eq_true_eq] at h0
        rw [List.length_eq_zero] at h0
        rw [h0] at hp
        simp at hp
  · intro n hn
    simp at hn

theorem topologicalSort_of_cycleFree (c : ProblemConfig) (hwf : WF c)
    (hcf : CycleFree c) :
    ∃ ord : List String,
      topologicalSort c = some (ord.map (fun k => alookup c.tasks k)) ∧
      ord.Perm (taskKeys c) ∧ OrderOK c ord := by
  have hhc := (hasCycles_correct c hwf).1 hcf
  obtain ⟨donef, hres, hperm, hordf⟩ := kahnLoop_ok c hwf hcf
    (c.tasks.length + 1) [] _ _ (kahnInv_init c hwf)
    (by
      have hl : (taskKeys c).length = c.tasks.length := by
        unfold taskKeys keysOf
        rw [List.length_map]
      omega)
  have hres' : kahnLoop c (c.tasks.length + 1)
      (((taskKeys c).map
          (fun k => (k, some ((getPreds c k).length : Int)))).filterMap
        (fun p => if p.2 = some 0 then some p.1 else none))
      ((taskKeys c).map (fun k => (k, some ((getPreds c k).length : Int))))
      [] = some (donef.map (fun k => alookup c.tasks k)) := hres
  refine ⟨donef, ?_, hperm, hordf⟩
  unfold topologicalSort
  rw [hhc]
  show (match kahnLoop c (c.tasks.length + 1)
      (((taskKeys c).map
          (fun k => (k, some ((getPreds c k).length : Int)))).filterMap
        (fun p => if p.2 = some 0 then some p.1 else none))
      ((taskKeys c).map (fun k => (k, some ((getPreds c k).length : Int))))
      [] with
    | none => none
    | some result =>
      if result.length = c.tasks.length then some result else none) =
    some (donef.map (fun k => alookup c.tasks k))
  rw [hres']
  show (if (donef.map (fun k => alookup c.tasks k)).length = c.tasks.length
      then some (donef.map (fun k => alookup c.tasks k)) else none) =
    some (donef.map (fun k => alookup c.tasks k))
  have hlen : (donef.map (fun k => alookup c.tasks k)).length =
      c.tasks.length := by
    rw [List.length_map, hperm.length_eq]
    unfold taskKeys keysOf
    rw [List.length_map]
  rw [if_pos hlen]

/-- C2: for every well-formed `ProblemConfig` whose precedence graph is
cycle-free, `topologicalSort` returns the image under `config.tasks.get`
of a key sequence that contains every task key exactly once and places
every direct predecessor strictly before each of its successors; for
every well-formed config containing a cycle, `hasCycles` returns `true`
and `topologicalSort` returns `null`. -/
theorem topologicalSort_correct (c : ProblemConfig) (hwf : WF c) :
    (CycleFree c →
      ∃ ord : List String,
        topologicalSort c = some (ord.map (fun k => alookup c.tasks k)) ∧
        ord.Perm (taskKeys c) ∧
        (∀ k ∈ taskKeys c, ord.count k = 1) ∧
        ∀ i j : Fin ord.length, succEdge c (ord.get i) (ord.get j) → i < j) ∧
    (¬ CycleFree c → hasCycles c = some true ∧ topologicalSort c = none) := by
  constructor
  · intro hcf
    obtain ⟨ord, hts, hperm, hord⟩ := topologicalSort_of_cycleFree c hwf hcf
    have hnd : ord.Nodup := (hperm.nodup_iff).mpr hwf.1
    refine ⟨ord, hts, hperm, ?_, ?_⟩
    · intro k hk
      rw [hperm.count_eq]
      exact List.count_eq_one_of_mem hwf.1 hk
    · intro i j hedge
      have hpred : ord.get i ∈ getPreds c (ord.get j) := hwf.edge_to_pred hedge
      have hmem : ord.get i ∈ ord.take j.val := hord j.val j.isLt _ hpred
      obtain ⟨m, hmeq⟩ := List.mem_iff_get.mp hmem
      have hmlt : m.val < j.val ∧ m.val < ord.length := by
        have hm := m.isLt
        have hlen : (List.take (j.val) ord).length = min (j.val) ord.length :=
          List.length_take _ _
        have hj := j.isLt
        omega
      have hget : ord.get ⟨m.val, hmlt.2⟩ = ord.get i := by
        rw [← hmeq]
        simp [List.get_eq_getElem, List.getElem_take]
      have hmi : (⟨m.val, hmlt.2⟩ : Fin ord.length) = i :=
        (List.Nodup.get_inj_iff hnd).mp hget
      have hiv : i.val = m.val := by rw [← hmi]
      rw [Fin.lt_def]
      omega
  · intro hncf
    have hhc := (hasCycles_correct c hwf).2 hncf
    refine ⟨hhc, ?_⟩
    unfold topologicalSort
    rw [hhc]

theorem topologicalSort_correct_witness :
    WF cfgDiamond ∧
    ((CycleFree cfgDiamond →
      ∃ ord : List String,
        topologicalSort cfgDiamond =
          some (ord.map (fun k => alookup cfgDiamond.tasks k)) ∧
        ord.Perm (taskKeys cfgDiamond) ∧
        (∀ k ∈ taskKeys cfgDiamond, ord.count k = 1) ∧
        ∀ i j : Fin ord.length,
          succEdge cfgDiamond (ord.get i) (ord.get j) → i < j) ∧
     (¬ CycleFree cfgDiamond → hasCycles cfgDiamond = some true ∧
        topologicalSort cfgDiamond = none)) :=
  ⟨by unfold WF; decide, topologicalSort_correct cfgDiamond (by unfold WF; decide)⟩

end MOLB
